import Mathlib

/-!
Verification of the AutoCorrect backend correction pipeline.

This file gives a shallow embedding, in Lean 4, of the core correction
pipeline of the AutoCorrect backend:

* `backend/models/spell_checker.py` — `LevenshteinSpellChecker`
  (dictionary / misspelling store, edit-distance candidate generation,
  phonetic rewrite, `get_corrections`);
* `backend/models/ngram_model.py` — `NgramModel` (tokenisation, training,
  additive smoothing, order backoff, next-word prediction);
* `backend/api/correction_endpoint.py` — `CorrectionService`
  (`_auto_correct`, `_correct_grammar`, `_generate_suggestions`);
* `backend/config.py` — the configuration constants the pipeline reads.

Python `float` values (confidences, probabilities, smoothing) are modelled
by `ℚ`; the concrete constants in play (0.95, 0.9, 0.85, 0.7, 0.3, 0.01)
are small decimal literals, and every comparison the code performs on them
is far from the region where binary-float rounding could flip it.
Python strings are modelled by `String` restricted to their ASCII
behaviour, which covers every string constant appearing in the code and in
the properties below.  Python dicts / Counters are modelled by a support
list (the keys, in insertion order) together with a total count function.
Python's stable `list.sort(key=...)` is modelled by a stable insertion
sort on the same key.
-/

set_option maxRecDepth 10000

/-! ### Python string semantics (ASCII fragment) -/

/-- Python `str.lower` on one ASCII character: uppercase letters move down
by 32, everything else is unchanged. -/
def lowChar (c : Char) : Char :=
  if 65 ≤ c.toNat ∧ c.toNat ≤ 90 then Char.ofNat (c.toNat + 32) else c

/-- Python `str.lower` (ASCII fragment). -/
def lowStr (s : String) : String := String.mk (s.data.map lowChar)

/-- Python `\w` (word character) on ASCII: letters, digits, underscore. -/
def wordChar (c : Char) : Bool := c.isAlphanum || c = '_'

/-- Group a character list into maximal runs of characters that agree on
the predicate `p`; each run is tagged with the value of `p` on it. -/
def groupRuns (p : Char → Bool) : List Char → List (Bool × List Char)
  | [] => []
  | c :: rest =>
    match groupRuns p rest with
    | [] => [(p c, [c])]
    | (b, run) :: t =>
      if p c = b then (p c, c :: run) :: t else (p c, [c]) :: (b, run) :: t

/-- Python `str.split()` with no argument: maximal runs of
non-whitespace characters, empties dropped. -/
def splitWS (s : String) : List String :=
  ((groupRuns (fun c => !c.isWhitespace) s.data).filter (·.1)).map
    (fun r => String.mk r.2)

/-- Python truthiness test `not text or not text.strip()`: the string is
empty or consists of whitespace only. -/
def isBlank (s : String) : Bool := s.data.all Char.isWhitespace

/-- Python `str.strip()` on dictionary lines (ASCII whitespace). -/
def stripStr (s : String) : String :=
  String.mk (((s.data.dropWhile Char.isWhitespace).reverse.dropWhile
    Char.isWhitespace).reverse)

/-- Python `str.capitalize()`: first character uppercased, the rest
lowercased. -/
def pyCapitalize (s : String) : String :=
  match s.data with
  | [] => ""
  | c :: rest => String.mk (c.toUpper :: rest.map lowChar)

/-- Python `str.isupper()`: at least one cased character and no lowercase
cased character (ASCII: cased = letter). -/
def pyIsUpper (s : String) : Bool :=
  s.data.any Char.isAlpha && s.data.all (fun c => !c.isAlpha || c.isUpper)

/-- Python `any(c.isalpha() for c in word)`. -/
def hasAlpha (s : String) : Bool := s.data.any Char.isAlpha

/-- Stable insertion of `x` into `l`: `x` goes in front of the first
element `y` with `le x y`.  Used to model Python's stable `list.sort`. -/
def insOrd (le : α → α → Bool) (x : α) : List α → List α
  | [] => [x]
  | y :: t => if le x y then x :: y :: t else y :: insOrd le x t

/-- Stable insertion sort; with `le a b := key a ≤ key b` this has the
same input/output behaviour as Python's stable `list.sort(key=...)`, and
with the reversed key it models `sort(key=..., reverse=True)`. -/
def sortStable (le : α → α → Bool) : List α → List α
  | [] => []
  | x :: t => insOrd le x (sortStable le t)

/-! ### Edit distance

`LevenshteinSpellChecker.levenshtein_distance` (spell_checker.py lines
145-168) computes the classic row-space DP, after swapping the arguments
once so that the first is at least as long as the second.  `pyInner` is
the inner `for j, c2 in enumerate(s2)` loop (one row), `pyOuter` the
outer `for i, c1 in enumerate(s1)` loop, and `pyLevenshtein` the whole
method; the single recursive swap `if len(s1) < len(s2): return
self.levenshtein_distance(s2, s1)` is unrolled into the top-level `if`.
-/

/-- Inner loop of the DP: walk the remainder of `s2` together with the
matching tail of the previous row; `left` is the last entry appended to
the current row (`current_row[j]`), `p0 :: p1 :: _` gives
`previous_row[j]` and `previous_row[j+1]`. -/
def pyInner (c1 : Char) : List Char → List Nat → Nat → List Nat
  | c2 :: rest, p0 :: p1 :: prest, left =>
      (min (p1 + 1) (min (left + 1) (p0 + (if c1 = c2 then 0 else 1)))) ::
        pyInner c1 rest (p1 :: prest)
          (min (p1 + 1) (min (left + 1) (p0 + (if c1 = c2 then 0 else 1))))
  | _, _, _ => []

/-- Outer loop of the DP: one row per character of `s1`; each row starts
with `i + 1` (`current_row = [i + 1]`). -/
def pyOuter (s2 : List Char) : List Char → List Nat → Nat → List Nat
  | [], prev, _ => prev
  | c1 :: rest, prev, i =>
      pyOuter s2 rest ((i + 1) :: pyInner c1 s2 prev (i + 1)) (i + 1)

/-- The DP body of `levenshtein_distance` after the swap: the early
return for `len(s2) == 0`, then `previous_row = range(len(s2) + 1)`, the
row loop, and finally `previous_row[-1]`. -/
def pyDP (s1 s2 : List Char) : Nat :=
  if s2.length = 0 then s1.length
  else (pyOuter s2 s1 (List.range (s2.length + 1)) 0).getLastD 0

/-- `LevenshteinSpellChecker.levenshtein_distance`. -/
def pyLevenshtein (s1 s2 : String) : Nat :=
  if s1.length < s2.length then pyDP s2.data s1.data else pyDP s1.data s2.data

/-- Reference Levenshtein distance with unit costs, by structural
recursion on the fronts of both lists.  The DP above is proved equal to
`lev` on the reversed inputs. -/
def lev : List Char → List Char → Nat
  | [], ys => ys.length
  | _ :: xs, [] => xs.length + 1
  | x :: xs, y :: ys =>
      min (lev xs (y :: ys) + 1)
        (min (lev (x :: xs) ys + 1) (lev xs ys + (if x = y then 0 else 1)))
termination_by a b => a.length + b.length
decreasing_by all_goals simp_arith

/-- Row abstraction for the DP invariant: `levRow xs ys rest` lists
`lev xs (rev t ++ ys)` for every nonempty prefix `t` of `rest`. -/
def levRow (xs : List Char) : List Char → List Char → List Nat
  | _, [] => []
  | ys, c :: rest => lev xs (c :: ys) :: levRow xs (c :: ys) rest

/-- Unfolding of `lev` on two nonempty lists. -/
lemma lev_cons_cons (x y : Char) (xs ys : List Char) :
    lev (x :: xs) (y :: ys) =
      min (lev xs (y :: ys) + 1)
        (min (lev (x :: xs) ys + 1) (lev xs ys + (if x = y then 0 else 1))) := by
  rw [lev]

/-- `lev` from the empty list is the length of the other list. -/
lemma lev_nil_left (ys : List Char) : lev [] ys = ys.length := by
  rw [lev]

/-- `lev` against the empty list on the right is the length. -/
lemma lev_nil_right (xs : List Char) : lev xs [] = xs.length := by
  cases xs with
  | nil => rw [lev]
  | cons x xs => rw [lev]; rfl

/-- One step of the inner loop invariant: fed the row of `lev xs ·`
values over the prefixes accumulated on `ys`, the inner loop produces the
row of `lev (c1 :: xs) ·` values. -/
lemma pyInner_eq (c1 : Char) :
    ∀ (rest ys xs : List Char),
      pyInner c1 rest (lev xs ys :: levRow xs ys rest) (lev (c1 :: xs) ys) =
        levRow (c1 :: xs) ys rest := by
  intro rest
  induction rest with
  | nil => intro ys xs; rfl
  | cons c2 rest ih =>
      intro ys xs
      show pyInner c1 (c2 :: rest)
          (lev xs ys :: lev xs (c2 :: ys) :: levRow xs (c2 :: ys) rest)
          (lev (c1 :: xs) ys) = _
      rw [pyInner, ← lev_cons_cons c1 c2 xs ys]
      show lev (c1 :: xs) (c2 :: ys) ::
          pyInner c1 rest (lev xs (c2 :: ys) :: levRow xs (c2 :: ys) rest)
            (lev (c1 :: xs) (c2 :: ys)) = _
      rw [ih (c2 :: ys) xs]
      rfl

/-- Outer loop invariant: starting from the row for the processed
(reversed) prefix `xs`, consuming `s1` yields the row for
`s1.reverse ++ xs`. -/
lemma pyOuter_eq (s2 : List Char) :
    ∀ (s1 xs : List Char),
      pyOuter s2 s1 (lev xs [] :: levRow xs [] s2) xs.length =
        lev (s1.reverse ++ xs) [] :: levRow (s1.reverse ++ xs) [] s2 := by
  intro s1
  induction s1 with
  | nil => intro xs; simp [pyOuter]
  | cons c1 rest ih =>
      intro xs
      rw [pyOuter]
      have h1 : xs.length + 1 = lev (c1 :: xs) [] := by
        rw [lev_nil_right]; rfl
      rw [h1, pyInner_eq c1 s2 [] xs]
      have h2 : lev (c1 :: xs) [] = (c1 :: xs).length := lev_nil_right _
      rw [show lev (c1 :: xs) [] :: levRow (c1 :: xs) [] s2 =
            lev (c1 :: xs) [] :: levRow (c1 :: xs) [] s2 from rfl]
      calc pyOuter s2 rest (lev (c1 :: xs) [] :: levRow (c1 :: xs) [] s2)
            (lev (c1 :: xs) [])
          = pyOuter s2 rest (lev (c1 :: xs) [] :: levRow (c1 :: xs) [] s2)
            ((c1 :: xs).length) := by rw [h2]
        _ = lev (rest.reverse ++ (c1 :: xs)) [] ::
            levRow (rest.reverse ++ (c1 :: xs)) [] s2 := ih (c1 :: xs)
        _ = lev ((c1 :: rest).reverse ++ xs) [] ::
            levRow ((c1 :: rest).reverse ++ xs) [] s2 := by
              rw [List.reverse_cons, List.append_assoc]; rfl

/-- The initial row `range(len(s2) + 1)` is the `lev [] ·` row. -/
lemma levRow_nil : ∀ (s2 ys : List Char),
    levRow [] ys s2 = (List.range s2.length).map (fun k => ys.length + k + 1) := by
  intro s2
  induction s2 with
  | nil => intro ys; rfl
  | cons c rest ih =>
      intro ys
      show lev [] (c :: ys) :: levRow [] (c :: ys) rest = _
      rw [ih (c :: ys), lev_nil_left]
      simp only [List.length_cons, List.range_succ_eq_map, List.map_cons,
        List.map_map]
      congr 1
      apply List.map_congr_left
      intro k _
      simp [Function.comp]
      omega

/-- `range (len s2 + 1)` written as the initial DP row. -/
lemma range_eq_row (s2 : List Char) :
    List.range (s2.length + 1) = lev [] [] :: levRow [] [] s2 := by
  rw [levRow_nil s2 [], List.range_succ_eq_map, lev_nil_left]
  congr 1
  apply List.map_congr_left
  intro k _
  simp

/-- The last entry of a `levRow`-shaped row is the distance against the
whole of `s2` (reversed onto the accumulator). -/
lemma levRow_getLast (xs : List Char) :
    ∀ (s2 ys : List Char) (d : Nat),
      (lev xs ys :: levRow xs ys s2).getLastD d = lev xs (s2.reverse ++ ys) := by
  intro s2
  induction s2 with
  | nil => intro ys d; rfl
  | cons c rest ih =>
      intro ys d
      show (lev xs ys :: lev xs (c :: ys) :: levRow xs (c :: ys) rest).getLastD d = _
      rw [List.getLastD_cons]
      rw [ih (c :: ys) (lev xs ys)]
      rw [List.reverse_cons, List.append_assoc]
      rfl

/-- Correctness of the row DP: it computes `lev` of the reversed inputs
(no assumption on the argument lengths is needed). -/
lemma pyDP_eq (s1 s2 : List Char) : pyDP s1 s2 = lev s1.reverse s2.reverse := by
  unfold pyDP
  by_cases h : s2.length = 0
  · rw [if_pos h]
    rw [List.length_eq_zero.mp h]
    rw [List.reverse_nil, lev_nil_right, List.length_reverse]
  · rw [if_neg h]
    rw [range_eq_row s2]
    have h0 : (0 : Nat) = ([] : List Char).length := rfl
    rw [h0, pyOuter_eq s2 s1 []]
    rw [List.append_nil]
    rw [levRow_getLast]
    rw [List.append_nil]

/-- `lev` is zero on the diagonal. -/
lemma lev_self (a : List Char) : lev a a = 0 := by
  induction a with
  | nil => rw [lev]; rfl
  | cons x xs ih =>
      rw [lev_cons_cons]
      simp [ih]

/-- `lev` is symmetric. -/
lemma lev_symm (a b : List Char) : lev a b = lev b a := by
  induction a, b using lev.induct with
  | case1 ys => rw [lev_nil_left, lev_nil_right]
  | case2 x xs => rw [lev_nil_left, lev_nil_right]
  | case3 x xs y ys ih1 ih2 ih3 =>
      rw [lev_cons_cons, lev_cons_cons, ih1, ih2, ih3]
      rw [if_congr (eq_comm (a := x) (b := y)) (rfl : (0 : Nat) = 0)
        (rfl : (1 : Nat) = 1)]
      rw [min_left_comm]

/-- An edit script of a given cost between two character lists: `keep`
costs nothing, `subst`, `del`, `ins` cost one each. -/
inductive EditSeq : List Char → List Char → Nat → Prop
  | nil : EditSeq [] [] 0
  | keep (x : Char) {xs ys : List Char} {n : Nat} :
      EditSeq xs ys n → EditSeq (x :: xs) (x :: ys) n
  | subst (x y : Char) {xs ys : List Char} {n : Nat} :
      EditSeq xs ys n → EditSeq (x :: xs) (y :: ys) (n + 1)
  | del (x : Char) {xs ys : List Char} {n : Nat} :
      EditSeq xs ys n → EditSeq (x :: xs) ys (n + 1)
  | ins (y : Char) {xs ys : List Char} {n : Nat} :
      EditSeq xs ys n → EditSeq xs (y :: ys) (n + 1)

/-- Delete everything: a script from any list to the empty list. -/
lemma editSeq_del_all : ∀ xs : List Char, EditSeq xs [] xs.length
  | [] => EditSeq.nil
  | x :: xs => EditSeq.del x (editSeq_del_all xs)

/-- Insert everything: a script from the empty list to any list. -/
lemma editSeq_ins_all : ∀ ys : List Char, EditSeq [] ys ys.length
  | [] => EditSeq.nil
  | y :: ys => EditSeq.ins y (editSeq_ins_all ys)

/-- There is always an edit script of cost `lev a b`. -/
lemma editSeq_lev (a b : List Char) : EditSeq a b (lev a b) := by
  induction a, b using lev.induct with
  | case1 ys =>
      rw [lev_nil_left]
      exact editSeq_ins_all ys
  | case2 x xs =>
      rw [lev_nil_right]
      exact editSeq_del_all (x :: xs)
  | case3 x xs y ys ih1 ih2 ih3 =>
      rw [lev_cons_cons]
      rcases min_cases (lev xs (y :: ys) + 1)
          (min (lev (x :: xs) ys + 1) (lev xs ys + if x = y then 0 else 1)) with
        ⟨h, _⟩ | ⟨h, _⟩
      · rw [h]; exact EditSeq.del x ih1
      · rw [h]
        rcases min_cases (lev (x :: xs) ys + 1)
            (lev xs ys + if x = y then 0 else 1) with ⟨h2, _⟩ | ⟨h2, _⟩
        · rw [h2]; exact EditSeq.ins y ih2
        · rw [h2]
          by_cases hxy : x = y
          · rw [if_pos hxy, hxy]
            exact EditSeq.keep y ih3
          · rw [if_neg hxy]
            exact EditSeq.subst x y ih3

/-- `lev` is the least cost of an edit script. -/
lemma lev_le_of_editSeq {a b : List Char} {n : Nat}
    (h : EditSeq a b n) : lev a b ≤ n := by
  induction h with
  | nil => rw [lev]; exact Nat.le_refl _
  | keep x h ih =>
      rw [lev_cons_cons]
      refine le_trans (le_trans (min_le_right _ _) (min_le_right _ _)) ?_
      rw [if_pos rfl]
      omega
  | subst x y h ih =>
      rw [lev_cons_cons]
      refine le_trans (le_trans (min_le_right _ _) (min_le_right _ _)) ?_
      by_cases hxy : x = y <;> simp [hxy] <;> omega
  | del x h ih =>
      rename_i xs ys n
      cases ys with
      | nil =>
          rw [lev_nil_right]
          rw [lev_nil_right] at ih
          simpa using Nat.add_le_add_right ih 1
      | cons y ys2 =>
          rw [lev_cons_cons]
          exact le_trans (min_le_left _ _) (by omega)
  | ins y h ih =>
      rename_i xs ys n
      cases xs with
      | nil =>
          rw [lev_nil_left]
          rw [lev_nil_left] at ih
          simpa using Nat.add_le_add_right ih 1
      | cons x xs2 =>
          rw [lev_cons_cons]
          exact le_trans (min_le_right _ _)
            (le_trans (min_le_left _ _) (by omega))

/-- Edit scripts compose, with cost at most the sum of the costs.  The
bound `N` drives the induction (the measure `m + n + a.length` strictly
decreases at every recursive use). -/
lemma editSeq_comp : ∀ (N m n : Nat) (a b c : List Char),
    m + n + a.length ≤ N → EditSeq a b m → EditSeq b c n →
    ∃ k, k ≤ m + n ∧ EditSeq a c k := by
  intro N
  induction N with
  | zero =>
      intro m n a b c hN h1 h2
      cases h1 with
      | nil => exact ⟨n, by omega, h2⟩
      | keep x h1' => simp at hN
      | subst x y h1' => simp at hN
      | del x h1' => simp at hN
      | ins y h1' => omega
  | succ N ih =>
      intro m n a b c hN h1 h2
      cases h1 with
      | nil => exact ⟨n, by omega, h2⟩
      | del x h1' =>
          rename_i a1 m1
          simp only [List.length_cons] at hN
          obtain ⟨k, hk, hs⟩ := ih m1 n a1 b c (by omega) h1' h2
          exact ⟨k + 1, by omega, EditSeq.del x hs⟩
      | keep x h1' =>
          rename_i a1 b1
          simp only [List.length_cons] at hN
          cases h2 with
          | keep _ h2' =>
              rename_i c1
              obtain ⟨k, hk, hs⟩ := ih m n a1 b1 c1 (by omega) h1' h2'
              exact ⟨k, hk, EditSeq.keep x hs⟩
          | subst _ z h2' =>
              rename_i c1 n1
              obtain ⟨k, hk, hs⟩ := ih m n1 a1 b1 c1 (by omega) h1' h2'
              exact ⟨k + 1, by omega, EditSeq.subst x z hs⟩
          | del _ h2' =>
              rename_i n1
              obtain ⟨k, hk, hs⟩ := ih m n1 a1 b1 c (by omega) h1' h2'
              exact ⟨k + 1, by omega, EditSeq.del x hs⟩
          | ins z h2' =>
              rename_i c1 n1
              obtain ⟨k, hk, hs⟩ :=
                ih m n1 (x :: a1) (x :: b1) c1 (by simp; omega)
                  (EditSeq.keep x h1') h2'
              exact ⟨k + 1, by omega, EditSeq.ins z hs⟩
      | subst x y h1' =>
          rename_i a1 b1 m1
          simp only [List.length_cons] at hN
          cases h2 with
          | keep _ h2' =>
              rename_i c1
              obtain ⟨k, hk, hs⟩ := ih m1 n a1 b1 c1 (by omega) h1' h2'
              exact ⟨k + 1, by omega, EditSeq.subst x y hs⟩
          | subst _ z h2' =>
              rename_i c1 n1
              obtain ⟨k, hk, hs⟩ := ih m1 n1 a1 b1 c1 (by omega) h1' h2'
              exact ⟨k + 1, by omega, EditSeq.subst x z hs⟩
          | del _ h2' =>
              rename_i n1
              obtain ⟨k, hk, hs⟩ := ih m1 n1 a1 b1 c (by omega) h1' h2'
              exact ⟨k + 1, by omega, EditSeq.del x hs⟩
          | ins z h2' =>
              rename_i c1 n1
              obtain ⟨k, hk, hs⟩ :=
                ih (m1 + 1) n1 (x :: a1) (y :: b1) c1 (by simp; omega)
                  (EditSeq.subst x y h1') h2'
              exact ⟨k + 1, by omega, EditSeq.ins z hs⟩
      | ins y h1' =>
          rename_i b1 m1
          cases h2 with
          | keep _ h2' =>
              rename_i c1
              obtain ⟨k, hk, hs⟩ := ih m1 n a b1 c1 (by omega) h1' h2'
              exact ⟨k + 1, by omega, EditSeq.ins y hs⟩
          | subst _ z h2' =>
              rename_i c1 n1
              obtain ⟨k, hk, hs⟩ := ih m1 n1 a b1 c1 (by omega) h1' h2'
              exact ⟨k + 1, by omega, EditSeq.ins z hs⟩
          | del _ h2' =>
              rename_i n1
              obtain ⟨k, hk, hs⟩ := ih m1 n1 a b1 c (by omega) h1' h2'
              exact ⟨k, by omega, hs⟩
          | ins z h2' =>
              rename_i c1 n1
              obtain ⟨k, hk, hs⟩ :=
                ih (m1 + 1) n1 a (y :: b1) c1 (by omega) (EditSeq.ins y h1') h2'
              exact ⟨k + 1, by omega, EditSeq.ins z hs⟩

/-- Triangle inequality for `lev`. -/
lemma lev_triangle (a b c : List Char) : lev a c ≤ lev a b + lev b c := by
  obtain ⟨k, hk, hs⟩ :=
    editSeq_comp (lev a b + lev b c + a.length) (lev a b) (lev b c) a b c
      (Nat.le_refl _) (editSeq_lev a b) (editSeq_lev b c)
  exact le_trans (lev_le_of_editSeq hs) hk

/-- The whole Python method agrees with `lev` on the reversed character
lists (the swap branch is absorbed by symmetry of `lev`). -/
lemma pyLevenshtein_eq_lev (s1 s2 : String) :
    pyLevenshtein s1 s2 = lev s1.data.reverse s2.data.reverse := by
  unfold pyLevenshtein
  by_cases h : s1.length < s2.length
  · rw [if_pos h, pyDP_eq, lev_symm]
  · rw [if_neg h, pyDP_eq]

/-- Claim C9: the edit-distance function as implemented
(`LevenshteinSpellChecker.levenshtein_distance`) is a metric on strings:
it is symmetric, satisfies the triangle inequality, and vanishes on the
diagonal. -/
theorem c9_editDistance_metric (a b c : String) :
    pyLevenshtein a a = 0 ∧
    pyLevenshtein a b = pyLevenshtein b a ∧
    pyLevenshtein a c ≤ pyLevenshtein a b + pyLevenshtein b c := by
  refine ⟨?_, ?_, ?_⟩
  · rw [pyLevenshtein_eq_lev, lev_self]
  · rw [pyLevenshtein_eq_lev, pyLevenshtein_eq_lev, lev_symm]
  · rw [pyLevenshtein_eq_lev, pyLevenshtein_eq_lev, pyLevenshtein_eq_lev]
    exact lev_triangle _ _ _

/-! ### Spell checker

`LevenshteinSpellChecker` (spell_checker.py).  The dictionary file is
environment data, so the constructor is parametrised by the raw lines; the
hard-coded fallback dictionary (used when the file is missing) is embedded
verbatim.  Python sets are modelled by duplicate-free lists; iteration
order over a Python set is unspecified, and no property proved below
depends on the order in which `generate_edit_candidates` scans the
dictionary.
-/

/-- `LevenshteinSpellChecker._load_common_misspellings`
(spell_checker.py lines 75-119). -/
def commonMisspellings : List (String × String) :=
  [("teh", "the"), ("adn", "and"), ("hte", "the"), ("taht", "that"),
   ("thier", "their"), ("recieve", "receive"), ("occured", "occurred"),
   ("occurance", "occurrence"), ("seperate", "separate"),
   ("definately", "definitely"), ("publically", "publicly"),
   ("untill", "until"), ("wich", "which"), ("begining", "beginning"),
   ("refered", "referred"), ("accross", "across"), ("thru", "through"),
   ("goverment", "government"), ("enviroment", "environment"),
   ("realy", "really"), ("wierd", "weird"), ("beleive", "believe"),
   ("acheive", "achieve"), ("existance", "existence"),
   ("occassion", "occasion"), ("necesary", "necessary"),
   ("neccessary", "necessary"), ("tommorow", "tomorrow"),
   ("tommorrow", "tomorrow"), ("succesful", "successful"),
   ("basicly", "basically"), ("finaly", "finally"), ("freind", "friend"),
   ("mispell", "misspell"), ("alot", "a lot"), ("aswell", "as well"),
   ("infact", "in fact"), ("ofcourse", "of course")]

/-- Lookup in the misspelling map (`word_lower in self.common_misspellings`
plus the access `self.common_misspellings[word_lower]`). -/
def lookupMis (w : String) : Option String :=
  (commonMisspellings.find? (fun e => e.1 == w)).map (·.2)

/-- `LevenshteinSpellChecker._load_phonetic_mappings` (lines 121-139);
each Python pattern is a whole word between `\b` boundaries, matched
case-insensitively, so it is recorded as the bare word. -/
def phoneticMappings : List (String × String) :=
  [("nite", "night"), ("lite", "light"), ("thru", "through"),
   ("u", "you"), ("ur", "your"), ("r", "are"), ("c", "see"),
   ("k", "okay"), ("ppl", "people"), ("msg", "message"),
   ("txt", "text"), ("thx", "thanks"), ("pls", "please")]

/-- One `re.sub(r'\b<pat>\b', repl, s, flags=re.IGNORECASE)` step for a
purely alphabetic `pat`: a match of the pattern is exactly a maximal run
of word characters that equals `pat` up to case, and each such run is
replaced. -/
def replaceWordB (pat repl : String) (s : String) : String :=
  String.mk (((groupRuns wordChar s.data).map
    (fun r =>
      if r.1 && (lowStr (String.mk r.2) == lowStr pat) then repl.data
      else r.2)).flatten)

/-- `LevenshteinSpellChecker.apply_phonetic_fixes` (lines 213-218). -/
def applyPhoneticFixes (s : String) : String :=
  phoneticMappings.foldl (fun acc pr => replaceWordB pr.1 pr.2 acc) s

/-- Frequency tier 1 (weight 10.0); note the capital `"I"`, copied from
the source, which the lowercased lookup can never hit. -/
def tier1 : List String :=
  ["the", "be", "to", "of", "and", "a", "in", "that", "have", "I", "it",
   "for", "not", "on", "with", "he", "as", "you", "do", "at"]

/-- Frequency tier 2 (weight 5.0). -/
def tier2 : List String :=
  ["this", "but", "his", "by", "from", "they", "we", "say", "her", "she",
   "or", "an", "will", "my", "one", "all", "would", "there", "their",
   "what"]

/-- Frequency tier 3 (weight 3.0). -/
def tier3 : List String :=
  ["so", "up", "out", "if", "about", "who", "get", "which", "go", "me",
   "when", "make", "can", "like", "time", "no", "just", "him", "know",
   "take"]

/-- Frequency tier 4 (weight 1.5). -/
def tier4 : List String :=
  ["people", "into", "year", "your", "good", "some", "could", "them",
   "see", "other", "than", "then", "now", "look", "only", "come", "its",
   "over", "think", "also", "back", "after", "use", "two", "how", "our",
   "work", "first", "well"]

/-- `LevenshteinSpellChecker.get_frequency_weight` (lines 170-183). -/
def getFrequencyWeight (w : String) : ℚ :=
  if lowStr w ∈ tier1 then 10
  else if lowStr w ∈ tier2 then 5
  else if lowStr w ∈ tier3 then 3
  else if lowStr w ∈ tier4 then 3 / 2
  else 1

/-- The hard-coded fallback dictionary used when the dictionary file does
not exist (`_load_dictionary`, lines 64-71). -/
def fallbackDictionary : List String :=
  ["the", "be", "to", "of", "and", "a", "in", "that", "have", "i", "it",
   "for", "not", "on", "with", "he", "as", "you", "do", "at", "this",
   "but", "his", "from", "they", "we", "say", "her", "she", "or", "an",
   "will", "my", "one", "all", "would", "there", "their"]

/-- The state of a `LevenshteinSpellChecker`: only the dictionary varies
(misspellings, phonetic rules and frequency tiers are the constants
above). -/
structure SpellChecker where
  dictionary : List String
deriving DecidableEq

/-- The regex test `^[a-z]+$` applied during dictionary loading. -/
def isLowerWord (w : String) : Bool := w ≠ "" && w.data.all Char.isLower

/-- `LevenshteinSpellChecker._load_dictionary` on a present file: strip
and lowercase each line, keep the purely alphabetic ones, collect into a
set (modelled as a duplicate-free list). -/
def loadDictionary (rawLines : List String) : List String :=
  ((rawLines.map (fun l => lowStr (stripStr l))).filter isLowerWord).dedup

/-- `LevenshteinSpellChecker.__init__` with a present dictionary file:
after loading, every key of the misspelling map is discarded from the
dictionary. -/
def mkSpellChecker (rawLines : List String) : SpellChecker :=
  ⟨(loadDictionary rawLines).filter (fun w => (lookupMis w).isNone)⟩

/-- `LevenshteinSpellChecker.__init__` when the dictionary file is
missing: the fallback dictionary, with misspelling keys discarded. -/
def fallbackSpellChecker : SpellChecker :=
  ⟨fallbackDictionary.filter (fun w => (lookupMis w).isNone)⟩

/-- `LevenshteinSpellChecker.is_valid_word` (lines 141-143). -/
def isValidWord (sc : SpellChecker) (w : String) : Bool :=
  sc.dictionary.contains (lowStr w)

/-- `LevenshteinSpellChecker.generate_edit_candidates` (lines 185-211):
misspelling map first, then the dictionary scan with the length
pre-filter, keep `0 < distance ≤ maxDistance`, sort ascending by
distance (stably), cap at 20. -/
def generateEditCandidates (sc : SpellChecker) (word : String)
    (maxDistance : Nat) : List String :=
  match lookupMis (lowStr word) with
  | some corr => [corr]
  | none =>
      let cds := sc.dictionary.filterMap (fun dw =>
        if maxDistance < ((dw.length : Int) - ((lowStr word).length : Int)).natAbs
        then none
        else
          if pyLevenshtein (lowStr word) dw ≤ maxDistance ∧
              0 < pyLevenshtein (lowStr word) dw
          then some (dw, pyLevenshtein (lowStr word) dw) else none)
      ((sortStable (fun a b => decide (a.2 ≤ b.2)) cds).take 20).map (·.1)

/-- `LevenshteinSpellChecker.get_corrections` (lines 220-277). -/
def getCorrections (sc : SpellChecker) (word : String) (_ctx : List String)
    (maxSuggestions : Nat) : List (String × ℚ) :=
  match lookupMis (lowStr word) with
  | some corr => [(corr, 19 / 20)]
  | none =>
      if isValidWord sc (lowStr word) then [(word, 1)]
      else
        let cands := generateEditCandidates sc (lowStr word) 2
        if cands.isEmpty then
          if applyPhoneticFixes (lowStr word) ≠ lowStr word ∧
              isValidWord sc (applyPhoneticFixes (lowStr word)) = true
          then [(applyPhoneticFixes (lowStr word), 17 / 20)]
          else [(word, 0)]
        else
          let scored := cands.map (fun cand =>
            (cand, (1 / ((pyLevenshtein (lowStr word) cand : ℚ) + 1)) * (7 / 10) +
                   (min (getFrequencyWeight cand / 10) 1) * (3 / 10)))
          (sortStable (fun a b => decide (b.2 ≤ a.2)) scored).take maxSuggestions

/-- Claim C5: `get_corrections` checks the exact-misspelling map before
dictionary validity.  For every raw dictionary source and every word: a
hit in the misspelling map returns exactly `[(correction, 0.95)]` (even
if the word occurs in the raw dictionary source), and a dictionary-valid
word that is not in the misspelling map returns exactly `[(word, 1.0)]`. -/
theorem c5_misspelling_priority (raw : List String) (w : String)
    (ctx : List String) (k : Nat) :
    (∀ corr : String, lookupMis (lowStr w) = some corr →
      getCorrections (mkSpellChecker raw) w ctx k = [(corr, 19 / 20)]) ∧
    (lookupMis (lowStr w) = none →
      isValidWord (mkSpellChecker raw) (lowStr w) = true →
      getCorrections (mkSpellChecker raw) w ctx k = [(w, 1)]) := by
  constructor
  · intro corr h
    simp [getCorrections, h]
  · intro h1 h2
    simp [getCorrections, h1, h2]

/-- Witness for C5 at a raw source that contains the misspelling
`"thier"` itself: the misspelling map still wins, and the dictionary word
`"their"` comes back with confidence 1. -/
theorem c5_witness :
    (lookupMis (lowStr "thier") = some "their" ∧
      getCorrections (mkSpellChecker ["thier", "their"]) "thier" [] 5 =
        [("their", 19 / 20)]) ∧
    (lookupMis (lowStr "their") = none ∧
      isValidWord (mkSpellChecker ["thier", "their"]) (lowStr "their") = true ∧
      getCorrections (mkSpellChecker ["thier", "their"]) "their" [] 5 =
        [("their", 1)]) :=
  ⟨⟨by decide,
    (c5_misspelling_priority ["thier", "their"] "thier" [] 5).1 "their" (by decide)⟩,
   ⟨by decide, by decide,
    (c5_misspelling_priority ["thier", "their"] "their" [] 5).2 (by decide) (by decide)⟩⟩

/-- Claim C8: for a word that is neither a known misspelling nor valid
and has no edit-distance candidate, `get_corrections` returns the
phonetic rewrite with confidence 0.85 when that rewrite is a valid
dictionary word, and otherwise `[(word, 0.0)]` — an explicit
no-correction signal, not an exception. -/
theorem c8_phonetic_fallback (sc : SpellChecker) (w : String)
    (ctx : List String) (k : Nat)
    (h1 : lookupMis (lowStr w) = none)
    (h2 : isValidWord sc (lowStr w) = false)
    (h3 : generateEditCandidates sc (lowStr w) 2 = []) :
    (isValidWord sc (applyPhoneticFixes (lowStr w)) = true →
      getCorrections sc w ctx k = [(applyPhoneticFixes (lowStr w), 17 / 20)]) ∧
    (isValidWord sc (applyPhoneticFixes (lowStr w)) = false →
      getCorrections sc w ctx k = [(w, 0)]) := by
  constructor
  · intro hph
    have hne : applyPhoneticFixes (lowStr w) ≠ lowStr w := by
      intro he
      rw [he, h2] at hph
      cases hph
    simp [getCorrections, h1, h2, h3, hph, hne]
  · intro hph
    simp [getCorrections, h1, h2, h3, hph]

/-- Witness for C8 on the dictionary `["thanks"]`: `"thx"` is not a
misspelling-map key, not valid, has no edit candidate (the length filter
rejects everything), and its phonetic rewrite `"thanks"` is valid. -/
theorem c8_witness :
    (lookupMis (lowStr "thx") = none ∧
     isValidWord (mkSpellChecker ["thanks"]) (lowStr "thx") = false ∧
     generateEditCandidates (mkSpellChecker ["thanks"]) (lowStr "thx") 2 = [] ∧
     isValidWord (mkSpellChecker ["thanks"])
       (applyPhoneticFixes (lowStr "thx")) = true) ∧
    getCorrections (mkSpellChecker ["thanks"]) "thx" [] 5 =
      [(applyPhoneticFixes (lowStr "thx"), 17 / 20)] :=
  ⟨⟨by decide, by decide, by decide, by decide⟩,
   (c8_phonetic_fallback (mkSpellChecker ["thanks"]) "thx" [] 5
     (by decide) (by decide) (by decide)).1 (by decide)⟩

/-! ### N-gram model

`NgramModel` (ngram_model.py).  A Python `Counter` is modelled by its
key list (insertion order) plus a total count function; a
`defaultdict(Counter)` by its key list plus a total function into
counters, absent keys giving the empty counter — exactly the lookup
behaviour of `d[k].get(w, 0)`.  (The `defaultdict` also inserts an empty
counter on such a read; an empty counter is invisible to every lookup and
to `_filter_ngrams`, so key lists here track only genuinely bumped keys.)
-/

/-- A Python `Counter` over keys `κ`. -/
structure Cnt (κ : Type) where
  supp : List κ
  cnt : κ → Nat

/-- The empty counter. -/
def Cnt.empty (κ : Type) : Cnt κ := ⟨[], fun _ => 0⟩

/-- `counter[k] += 1`. -/
def Cnt.bump [DecidableEq κ] (c : Cnt κ) (k : κ) : Cnt κ :=
  ⟨if k ∈ c.supp then c.supp else c.supp ++ [k],
   fun x => if x = k then c.cnt k + 1 else c.cnt x⟩

/-- `Counter.most_common(n)`: entries sorted by count descending
(stably, ties by insertion order), truncated to `n`. -/
def Cnt.mostCommon [DecidableEq κ] (c : Cnt κ) (n : Nat) : List (κ × Nat) :=
  (sortStable (fun a b => decide (b.2 ≤ a.2))
    (c.supp.map (fun k => (k, c.cnt k)))).take n

/-- `counter[k] >= min_count` filtering, as in `_filter_ngrams`. -/
def Cnt.filterMin (c : Cnt κ) (mc : Nat) : Cnt κ :=
  ⟨c.supp.filter (fun k => decide (mc ≤ c.cnt k)),
   fun k => if mc ≤ c.cnt k then c.cnt k else 0⟩

/-- A Python `defaultdict(Counter)` with keys `κ` and string-keyed inner
counters. -/
structure Tbl (κ : Type) where
  keys : List κ
  entry : κ → Cnt String

/-- The empty table. -/
def Tbl.empty (κ : Type) : Tbl κ := ⟨[], fun _ => Cnt.empty String⟩

/-- `table[k][w] += 1`. -/
def Tbl.bump [DecidableEq κ] (t : Tbl κ) (k : κ) (w : String) : Tbl κ :=
  ⟨if k ∈ t.keys then t.keys else t.keys ++ [k],
   fun x => if x = k then (t.entry k).bump w else t.entry x⟩

/-- `table[k].get(w, 0)`. -/
def Tbl.look (t : Tbl κ) (k : κ) (w : String) : Nat := (t.entry k).cnt w

/-- Per-table pass of `_filter_ngrams`: filter every inner counter, drop
outer keys whose filtered counter became empty. -/
def Tbl.filterMin (t : Tbl κ) (mc : Nat) : Tbl κ :=
  ⟨t.keys.filter (fun k => !((t.entry k).filterMin mc).supp.isEmpty),
   fun k => (t.entry k).filterMin mc⟩

/-- The state of an `NgramModel` (ngram_model.py lines 23-44). -/
structure NgramModel where
  order : Nat
  unigrams : Cnt String
  bigrams : Tbl String
  trigrams : Tbl (String × String)
  fourgrams : Tbl (String × String × String)
  vocabulary : List String
  totalWords : Nat
  trained : Bool

/-- `NgramModel.__init__`: the order is capped at 4, everything empty,
untrained. -/
def NgramModel.init (order : Nat) : NgramModel :=
  ⟨min order 4, Cnt.empty String, Tbl.empty String,
   Tbl.empty (String × String), Tbl.empty (String × String × String),
   [], 0, false⟩

/-- `NgramModel._tokenize` (lines 74-87): lowercase, then
`re.findall(r'\b[a-z]+\b', text)`.  A match of that pattern is exactly a
maximal run of word characters (`[A-Za-z0-9_]` on ASCII) consisting
entirely of `[a-z]`; a letter run touching a digit or an underscore has
no `\b` boundary next to it and is not matched at all. -/
def tokenize (text : String) : List String :=
  (groupRuns wordChar (lowStr text).data).filterMap
    (fun r => if r.1 && r.2.all Char.isLower then some (String.mk r.2) else none)

/-- `self.vocabulary.add(token)` on the set-as-list model. -/
def vocabAdd (v : List String) (t : String) : List String :=
  if t ∈ v then v else v ++ [t]

/-- Bigram update of one `_add_tokens` iteration: only when `i > 0`
(`p1` exists) and the order admits bigrams. -/
def bumpBiT (tb : Tbl String) (ord : Nat) (p1 : Option String)
    (t : String) : Tbl String :=
  if 2 ≤ ord then
    match p1 with
    | some a => tb.bump a t
    | none => tb
  else tb

/-- Trigram update of one `_add_tokens` iteration. -/
def bumpTriT (tb : Tbl (String × String)) (ord : Nat)
    (p2 p1 : Option String) (t : String) : Tbl (String × String) :=
  if 3 ≤ ord then
    match p2 with
    | none => tb
    | some a =>
      match p1 with
      | none => tb
      | some b => tb.bump (a, b) t
  else tb

/-- Fourgram update of one `_add_tokens` iteration. -/
def bumpFourT (tb : Tbl (String × String × String)) (ord : Nat)
    (p3 p2 p1 : Option String) (t : String) :
    Tbl (String × String × String) :=
  if 4 ≤ ord then
    match p3 with
    | none => tb
    | some a =>
      match p2 with
      | none => tb
      | some b =>
        match p1 with
        | none => tb
        | some c => tb.bump (a, b, c) t
  else tb

/-- One iteration of the `_add_tokens` loop (lines 94-116): `p1`, `p2`,
`p3` are `tokens[i-1]`, `tokens[i-2]`, `tokens[i-3]` when they exist
(`i > 0`, `i > 1`, `i > 2`). -/
def addTok (m : NgramModel) (p3 p2 p1 : Option String) (t : String) :
    NgramModel :=
  { m with
    vocabulary := vocabAdd m.vocabulary t
    unigrams := m.unigrams.bump t
    totalWords := m.totalWords + 1
    bigrams := bumpBiT m.bigrams m.order p1 t
    trigrams := bumpTriT m.trigrams m.order p2 p1 t
    fourgrams := bumpFourT m.fourgrams m.order p3 p2 p1 t }

/-- The `_add_tokens` loop with its sliding window. -/
def addTokensGo (m : NgramModel) (p3 p2 p1 : Option String) :
    List String → NgramModel
  | [] => m
  | t :: ts => addTokensGo (addTok m p3 p2 p1 t) p2 p1 (some t) ts

/-- `NgramModel._add_tokens` (the empty-token early return is the `[]`
case of the loop). -/
def addTokens (m : NgramModel) (ts : List String) : NgramModel :=
  addTokensGo m none none none ts

/-- `NgramModel._filter_ngrams` (lines 118-155): unigrams and bigrams are
always filtered, trigrams only for order ≥ 3, fourgrams only for
order ≥ 4; vocabulary and `total_words` are untouched. -/
def filterNgrams (m : NgramModel) (mc : Nat) : NgramModel :=
  { m with
    unigrams := m.unigrams.filterMin mc
    bigrams := m.bigrams.filterMin mc
    trigrams := if 3 ≤ m.order then m.trigrams.filterMin mc else m.trigrams
    fourgrams := if 4 ≤ m.order then m.fourgrams.filterMin mc else m.fourgrams }

/-- `NgramModel.train` (lines 47-72): accumulate counts text by text,
prune by `min_count`, set the trained flag. -/
def train (m : NgramModel) (texts : List String) (minCount : Nat) :
    NgramModel :=
  { filterNgrams (texts.foldl (fun acc t => addTokens acc (tokenize t)) m)
      minCount with
    trained := true }

/-- `NgramModel._get_unigram_prob` (lines 190-194). -/
def getUnigramProb (m : NgramModel) (w : String) (s : ℚ) : ℚ :=
  ((m.unigrams.cnt w : ℚ) + s) /
    ((m.totalWords : ℚ) + (m.vocabulary.length : ℚ) * s)

/-- `NgramModel._get_bigram_prob` (lines 196-209). -/
def getBigramProb (m : NgramModel) (w : String) (ctx : List String) (s : ℚ) :
    ℚ :=
  match ctx.getLast? with
  | none => getUnigramProb m w s
  | some prev =>
      if m.unigrams.cnt prev = 0 then getUnigramProb m w s
      else ((m.bigrams.look prev w : ℚ) + s) /
        ((m.unigrams.cnt prev : ℚ) + (m.vocabulary.length : ℚ) * s)

/-- `NgramModel._get_trigram_prob` (lines 211-225). -/
def getTrigramProb (m : NgramModel) (w : String) (ctx : List String) (s : ℚ) :
    ℚ :=
  if ctx.length < 2 then getBigramProb m w ctx s
  else
    if m.bigrams.look (ctx.getD (ctx.length - 2) "")
        (ctx.getD (ctx.length - 1) "") = 0 then
      getBigramProb m w [ctx.getD (ctx.length - 1) ""] s
    else
      ((m.trigrams.look (ctx.getD (ctx.length - 2) "",
          ctx.getD (ctx.length - 1) "") w : ℚ) + s) /
        ((m.bigrams.look (ctx.getD (ctx.length - 2) "")
            (ctx.getD (ctx.length - 1) "") : ℚ) +
          (m.vocabulary.length : ℚ) * s)

/-- `NgramModel._get_fourgram_prob` (lines 227-241). -/
def getFourgramProb (m : NgramModel) (w : String) (ctx : List String)
    (s : ℚ) : ℚ :=
  if ctx.length < 3 then getTrigramProb m w ctx s
  else
    if m.trigrams.look (ctx.getD (ctx.length - 3) "",
        ctx.getD (ctx.length - 2) "") (ctx.getD (ctx.length - 1) "") = 0 then
      getTrigramProb m w
        [ctx.getD (ctx.length - 2) "", ctx.getD (ctx.length - 1) ""] s
    else
      ((m.fourgrams.look (ctx.getD (ctx.length - 3) "",
          ctx.getD (ctx.length - 2) "", ctx.getD (ctx.length - 1) "") w : ℚ) +
          s) /
        ((m.trigrams.look (ctx.getD (ctx.length - 3) "",
            ctx.getD (ctx.length - 2) "")
            (ctx.getD (ctx.length - 1) "") : ℚ) +
          (m.vocabulary.length : ℚ) * s)

/-- `NgramModel.get_probability` (lines 157-188): untrained models return
the smoothing constant; otherwise lowercase the word, drop empty context
entries and lowercase the rest, and dispatch on the highest order that
fits both the context length and `self.order`. -/
def getProbability (m : NgramModel) (word : String) (context : List String)
    (s : ℚ) : ℚ :=
  if m.trained = false then s
  else
    let ctx := (context.filter (fun x => x != "")).map lowStr
    if 3 ≤ ctx.length ∧ 4 ≤ m.order then
      getFourgramProb m (lowStr word) (ctx.drop (ctx.length - 3)) s
    else if 2 ≤ ctx.length ∧ 3 ≤ m.order then
      getTrigramProb m (lowStr word) (ctx.drop (ctx.length - 2)) s
    else if 1 ≤ ctx.length ∧ 2 ≤ m.order then
      getBigramProb m (lowStr word) (ctx.drop (ctx.length - 1)) s
    else getUnigramProb m (lowStr word) s

/-- `NgramModel.rank_candidates` (lines 243-266): score by
`get_probability` with the default smoothing 0.01, stable-sort
descending, truncate. -/
def rankCandidates (m : NgramModel) (cands : List String)
    (ctx : List String) (topK : Nat) : List (String × ℚ) :=
  (sortStable (fun a b => decide (b.2 ≤ a.2))
    (cands.map (fun w => (w, getProbability m w ctx (1 / 100))))).take topK

/-- `NgramModel.get_next_word_predictions` (lines 268-308).  The
candidate set is the union of the observed continuations at every order
whose context length fits.  When that union is empty the code runs
`candidates = set(self.unigrams.most_common(100))` (line 305): the set
then holds `(word, count)` tuples, and `rank_candidates` feeds each one
to `get_probability`, whose `word.lower()` raises `AttributeError`
("'tuple' object has no attribute 'lower'").  The `Except` result makes
that raised exception explicit; the fallback only survives when
`most_common(100)` is empty, in which case ranking the empty candidate
list returns `[]`. -/
def getNextWordPredictions (m : NgramModel) (context : List String)
    (topK : Nat) : Except String (List (String × ℚ)) :=
  let ctx := (context.filter (fun x => x != "")).map lowStr
  let c4 : List String :=
    if 3 ≤ ctx.length ∧ 4 ≤ m.order then
      if (ctx.getD (ctx.length - 3) "", ctx.getD (ctx.length - 2) "",
          ctx.getD (ctx.length - 1) "") ∈ m.fourgrams.keys then
        (m.fourgrams.entry (ctx.getD (ctx.length - 3) "",
          ctx.getD (ctx.length - 2) "", ctx.getD (ctx.length - 1) "")).supp
      else []
    else []
  let c3 : List String :=
    if 2 ≤ ctx.length ∧ 3 ≤ m.order then
      if (ctx.getD (ctx.length - 2) "", ctx.getD (ctx.length - 1) "") ∈
          m.trigrams.keys then
        (m.trigrams.entry (ctx.getD (ctx.length - 2) "",
          ctx.getD (ctx.length - 1) "")).supp
      else []
    else []
  let c2 : List String :=
    if 1 ≤ ctx.length ∧ 2 ≤ m.order then
      if ctx.getD (ctx.length - 1) "" ∈ m.bigrams.keys then
        (m.bigrams.entry (ctx.getD (ctx.length - 1) "")).supp
      else []
    else []
  let cands := (c4 ++ c3 ++ c2).dedup
  if cands.isEmpty then
    if (m.unigrams.mostCommon 100).isEmpty then Except.ok []
    else Except.error
      "AttributeError: 'tuple' object has no attribute 'lower'"
  else Except.ok (rankCandidates m cands ctx topK)

/-- Effect of `Cnt.bump` on lookups. -/
lemma Cnt.cnt_bump [DecidableEq κ] (c : Cnt κ) (k x : κ) :
    (c.bump k).cnt x = c.cnt x + if x = k then 1 else 0 := by
  simp only [Cnt.bump]
  by_cases h : x = k
  · subst h; simp
  · simp [h]

/-- Effect of `Tbl.bump` on lookups. -/
lemma Tbl.look_bump [DecidableEq κ] (t : Tbl κ) (k : κ) (w : String)
    (k' : κ) (w' : String) :
    (t.bump k w).look k' w' =
      t.look k' w' + if k' = k ∧ w' = w then 1 else 0 := by
  simp only [Tbl.bump, Tbl.look]
  by_cases hk : k' = k
  · subst hk; simp [Cnt.cnt_bump]
  · simp [hk]

/-- Filtering can only lower a count. -/
lemma Cnt.cnt_filterMin_le (c : Cnt κ) (mc : Nat) (k : κ) :
    (c.filterMin mc).cnt k ≤ c.cnt k := by
  simp only [Cnt.filterMin]
  split <;> omega

/-- A nonzero filtered count is the raw count, and passed the threshold. -/
lemma Cnt.cnt_filterMin_ne_zero (c : Cnt κ) (mc : Nat) (k : κ)
    (h : (c.filterMin mc).cnt k ≠ 0) :
    (c.filterMin mc).cnt k = c.cnt k ∧ mc ≤ c.cnt k := by
  simp only [Cnt.filterMin] at h ⊢
  split at h
  · simp_all
  · simp_all

/-- A raw count over the threshold survives filtering unchanged. -/
lemma Cnt.cnt_filterMin_of_le (c : Cnt κ) (mc : Nat) (k : κ)
    (h : mc ≤ c.cnt k) : (c.filterMin mc).cnt k = c.cnt k := by
  simp only [Cnt.filterMin]
  rw [if_pos h]

/-- Filtering can only lower a table lookup. -/
lemma Tbl.look_filterMin_le (t : Tbl κ) (mc : Nat) (k : κ) (w : String) :
    (t.filterMin mc).look k w ≤ t.look k w := by
  simp only [Tbl.filterMin, Tbl.look]
  exact Cnt.cnt_filterMin_le _ _ _

/-- A nonzero filtered table lookup is the raw lookup, over the
threshold. -/
lemma Tbl.look_filterMin_ne_zero (t : Tbl κ) (mc : Nat) (k : κ) (w : String)
    (h : (t.filterMin mc).look k w ≠ 0) :
    (t.filterMin mc).look k w = t.look k w ∧ mc ≤ t.look k w := by
  simp only [Tbl.filterMin, Tbl.look] at h ⊢
  exact Cnt.cnt_filterMin_ne_zero _ _ _ h

/-- Invariant of the `_add_tokens` loop, relative to the sliding window
`p3 p2 p1` (the up-to-three most recently processed tokens, newest
last).  Each count table is dominated by the table one order below, with
one unit of slack reserved for the window itself, whose final n-gram has
been counted above but whose continuation has not yet arrived. -/
def WindowInv (m : NgramModel) (p3 p2 p1 : Option String) : Prop :=
  (∀ w, m.unigrams.cnt w ≤ m.totalWords) ∧
  (∀ p w, m.bigrams.look p w + (if p1 = some p then 1 else 0) ≤
      m.unigrams.cnt p) ∧
  (3 ≤ m.order → ∀ a b w,
    m.trigrams.look (a, b) w +
        (if p2 = some a ∧ p1 = some b then 1 else 0) ≤
      m.bigrams.look a b) ∧
  (4 ≤ m.order → ∀ a b c w,
    m.fourgrams.look (a, b, c) w +
        (if p3 = some a ∧ p2 = some b ∧ p1 = some c then 1 else 0) ≤
      m.trigrams.look (a, b) c) ∧
  (∀ p, m.unigrams.cnt p ≠ 0 → p ∈ m.vocabulary)

/-- Lookup change of one `addTok` step, unigram table. -/
lemma addTok_uni (m : NgramModel) (p3 p2 p1 : Option String) (t w : String) :
    (addTok m p3 p2 p1 t).unigrams.cnt w =
      m.unigrams.cnt w + if w = t then 1 else 0 := by
  simp [addTok, Cnt.cnt_bump]

/-- Lookup change of one `addTok` step, bigram table. -/
lemma addTok_bi (m : NgramModel) (p3 p2 p1 : Option String) (t p w : String) :
    (addTok m p3 p2 p1 t).bigrams.look p w =
      m.bigrams.look p w +
        if 2 ≤ m.order ∧ p1 = some p ∧ w = t then 1 else 0 := by
  show (bumpBiT m.bigrams m.order p1 t).look p w = _
  simp only [bumpBiT]
  by_cases h2 : 2 ≤ m.order
  · rw [if_pos h2]
    cases p1 with
    | none => simp
    | some a =>
        simp only [Tbl.look_bump]
        by_cases hp : a = p
        · subst hp; simp [h2]
        · simp only [Option.some.injEq, Tbl.look]
          simp [hp]
          exact fun h => absurd h.symm hp
  · rw [if_neg h2]
    simp [h2]

/-- Lookup change of one `addTok` step, trigram table. -/
lemma addTok_tri (m : NgramModel) (p3 p2 p1 : Option String)
    (t a b w : String) :
    (addTok m p3 p2 p1 t).trigrams.look (a, b) w =
      m.trigrams.look (a, b) w +
        if 3 ≤ m.order ∧ p2 = some a ∧ p1 = some b ∧ w = t then 1 else 0 := by
  show (bumpTriT m.trigrams m.order p2 p1 t).look (a, b) w = _
  simp only [bumpTriT]
  by_cases h3 : 3 ≤ m.order
  · rw [if_pos h3]
    cases p2 with
    | none => simp
    | some x =>
        cases p1 with
        | none => simp
        | some y =>
            simp only [Tbl.look_bump]
            by_cases hx : x = a
            · subst hx
              by_cases hy : y = b
              · subst hy; simp [h3]
              · simp [hy]
                exact fun h => absurd h.symm hy
            · simp [hx]
              exact fun h _ => absurd h.symm hx
  · rw [if_neg h3]
    simp [h3]

/-- Lookup change of one `addTok` step, fourgram table. -/
lemma addTok_four (m : NgramModel) (p3 p2 p1 : Option String)
    (t a b c w : String) :
    (addTok m p3 p2 p1 t).fourgrams.look (a, b, c) w =
      m.fourgrams.look (a, b, c) w +
        if 4 ≤ m.order ∧ p3 = some a ∧ p2 = some b ∧ p1 = some c ∧ w = t
        then 1 else 0 := by
  show (bumpFourT m.fourgrams m.order p3 p2 p1 t).look (a, b, c) w = _
  simp only [bumpFourT]
  by_cases h4 : 4 ≤ m.order
  · rw [if_pos h4]
    cases p3 with
    | none => simp
    | some x =>
        cases p2 with
        | none => simp
        | some y =>
            cases p1 with
            | none => simp
            | some z =>
                simp only [Tbl.look_bump]
                by_cases hx : x = a
                · subst hx
                  by_cases hy : y = b
                  · subst hy
                    by_cases hz : z = c
                    · subst hz; simp [h4]
                    · simp [hz]
                      exact fun h => absurd h.symm hz
                  · simp [hy]
                    exact fun h _ => absurd h.symm hy
                · simp [hx]
                  exact fun h _ _ => absurd h.symm hx
  · rw [if_neg h4]
    simp [h4]

/-- The added token lands in the vocabulary. -/
lemma vocabAdd_self (v : List String) (t : String) : t ∈ vocabAdd v t := by
  unfold vocabAdd
  split <;> simp_all

/-- `vocabAdd` only adds. -/
lemma vocabAdd_mono (v : List String) (t x : String) (h : x ∈ v) :
    x ∈ vocabAdd v t := by
  unfold vocabAdd
  split <;> simp_all

/-- One `_add_tokens` iteration preserves the window invariant, shifting
the window. -/
lemma windowInv_addTok (m : NgramModel) (p3 p2 p1 : Option String)
    (t : String) (h : WindowInv m p3 p2 p1) :
    WindowInv (addTok m p3 p2 p1 t) p2 p1 (some t) := by
  obtain ⟨hA, hB, hC, hD, hE⟩ := h
  have horder : (addTok m p3 p2 p1 t).order = m.order := rfl
  have htot : (addTok m p3 p2 p1 t).totalWords = m.totalWords + 1 := rfl
  refine ⟨?_, ?_, ?_, ?_, ?_⟩
  · intro w
    rw [addTok_uni, htot]
    have := hA w
    split_ifs <;> omega
  · intro p w
    rw [addTok_bi, addTok_uni]
    have h1 := hB p w
    clear hA hB hC hD hE htot horder
    by_cases hpp : p1 = some p <;> by_cases hwt : w = t <;>
      by_cases hpt : p = t <;> by_cases h2 : 2 ≤ m.order <;>
      simp_all [@eq_comm String t] <;> first | omega | (split_ifs <;> omega)
  · rw [horder]
    intro h3 a b w
    rw [addTok_tri, addTok_bi]
    have h1 := hC h3 a b w
    have h2 : 2 ≤ m.order := by omega
    clear hA hB hC hD hE htot
    by_cases hq2 : p2 = some a <;> by_cases hq1 : p1 = some b <;>
      by_cases hwt : w = t <;> by_cases hpa : p1 = some a <;>
      by_cases hbt : b = t <;>
      simp_all [@eq_comm String t] <;> omega
  · rw [horder]
    intro h4 a b c w
    rw [addTok_four, addTok_tri]
    have h1 := hD h4 a b c w
    have h3 : 3 ≤ m.order := by omega
    clear hA hB hC hD hE htot
    by_cases hq3 : p3 = some a <;> by_cases hq2 : p2 = some b <;>
      by_cases hq1 : p1 = some c <;> by_cases hwt : w = t <;>
      by_cases hpa : p2 = some a <;> by_cases hpb : p1 = some b <;>
      by_cases hct : c = t <;>
      simp_all [@eq_comm String t] <;> omega
  · intro p hp
    rw [addTok_uni] at hp
    show p ∈ vocabAdd m.vocabulary t
    by_cases hpt : p = t
    · subst hpt; exact vocabAdd_self _ _
    · rw [if_neg hpt] at hp
      exact vocabAdd_mono _ _ _ (hE p (by omega))

/-- The window invariant is preserved by the whole `_add_tokens` loop. -/
lemma windowInv_addTokensGo : ∀ (ts : List String) (m : NgramModel)
    (p3 p2 p1 : Option String), WindowInv m p3 p2 p1 →
    ∃ q3 q2 q1, WindowInv (addTokensGo m p3 p2 p1 ts) q3 q2 q1 := by
  intro ts
  induction ts with
  | nil => intro m p3 p2 p1 h; exact ⟨p3, p2, p1, h⟩
  | cons t ts ih =>
      intro m p3 p2 p1 h
      exact ih (addTok m p3 p2 p1 t) p2 p1 (some t) (windowInv_addTok _ _ _ _ _ h)

/-- The window invariant for any window implies it for the empty window. -/
lemma windowInv_weaken (m : NgramModel) (p3 p2 p1 : Option String)
    (h : WindowInv m p3 p2 p1) : WindowInv m none none none := by
  obtain ⟨hA, hB, hC, hD, hE⟩ := h
  refine ⟨hA, ?_, ?_, ?_, hE⟩
  · intro p w
    have := hB p w
    simp only [reduceCtorEq, if_false]
    split_ifs at this <;> omega
  · intro h3 a b w
    have := hC h3 a b w
    simp only [reduceCtorEq, false_and, if_false]
    split_ifs at this <;> omega
  · intro h4 a b c w
    have := hD h4 a b c w
    simp only [reduceCtorEq, false_and, if_false]
    split_ifs at this <;> omega

/-- The freshly initialised model satisfies the window invariant. -/
lemma windowInv_init (ord : Nat) :
    WindowInv (NgramModel.init ord) none none none := by
  refine ⟨?_, ?_, ?_, ?_, ?_⟩ <;>
    simp [NgramModel.init, Cnt.empty, Tbl.empty, Tbl.look]

/-- Invariant through the per-text fold of `train`. -/
lemma windowInv_fold : ∀ (texts : List String) (m : NgramModel),
    (∃ p3 p2 p1, WindowInv m p3 p2 p1) →
    ∃ q3 q2 q1, WindowInv
      (texts.foldl (fun acc t => addTokens acc (tokenize t)) m) q3 q2 q1 := by
  intro texts
  induction texts with
  | nil => intro m h; simpa using h
  | cons t ts ih =>
      intro m h
      obtain ⟨p3, p2, p1, h⟩ := h
      exact ih _ (windowInv_addTokensGo _ _ _ _ _ (windowInv_weaken _ _ _ _ h))

/-- A table lookup over the threshold survives `_filter_ngrams`
unchanged. -/
lemma Tbl.look_filterMin_of_le (t : Tbl κ) (mc : Nat) (k : κ) (w : String)
    (h : mc ≤ t.look k w) : (t.filterMin mc).look k w = t.look k w := by
  simp only [Tbl.filterMin, Tbl.look] at h ⊢
  exact Cnt.cnt_filterMin_of_le _ _ _ h

/-- Soundness of a model's count tables after pruning: every nonzero
lookup is dominated by the nonzero lookup of its conditioning context in
the table one order below, and nonzero unigram counts lie in the
vocabulary. -/
def Sound (m : NgramModel) : Prop :=
  (∀ w, m.unigrams.cnt w ≤ m.totalWords) ∧
  (∀ p w, m.bigrams.look p w ≠ 0 →
    m.bigrams.look p w ≤ m.unigrams.cnt p ∧ m.unigrams.cnt p ≠ 0) ∧
  (3 ≤ m.order → ∀ a b w, m.trigrams.look (a, b) w ≠ 0 →
    m.trigrams.look (a, b) w ≤ m.bigrams.look a b ∧
      m.bigrams.look a b ≠ 0) ∧
  (4 ≤ m.order → ∀ a b c w, m.fourgrams.look (a, b, c) w ≠ 0 →
    m.fourgrams.look (a, b, c) w ≤ m.trigrams.look (a, b) c ∧
      m.trigrams.look (a, b) c ≠ 0) ∧
  (∀ p, m.unigrams.cnt p ≠ 0 → p ∈ m.vocabulary)

/-- Pruning a model that satisfies the window invariant yields a sound
model. -/
lemma sound_filterNgrams (m : NgramModel) (mc : Nat)
    (h : ∃ p3 p2 p1, WindowInv m p3 p2 p1) : Sound (filterNgrams m mc) := by
  obtain ⟨p3, p2, p1, hA, hB, hC, hD, hE⟩ := h
  have hBp : ∀ p w, m.bigrams.look p w ≤ m.unigrams.cnt p := by
    intro p w
    have := hB p w
    split_ifs at this <;> omega
  have hCp : 3 ≤ m.order → ∀ a b w,
      m.trigrams.look (a, b) w ≤ m.bigrams.look a b := by
    intro h3 a b w
    have := hC h3 a b w
    split_ifs at this <;> omega
  have hDp : 4 ≤ m.order → ∀ a b c w,
      m.fourgrams.look (a, b, c) w ≤ m.trigrams.look (a, b) c := by
    intro h4 a b c w
    have := hD h4 a b c w
    split_ifs at this <;> omega
  have hfu : (filterNgrams m mc).unigrams = m.unigrams.filterMin mc := rfl
  have hfb : (filterNgrams m mc).bigrams = m.bigrams.filterMin mc := rfl
  have hfo : (filterNgrams m mc).order = m.order := rfl
  refine ⟨?_, ?_, ?_, ?_, ?_⟩
  · intro w
    rw [hfu]
    exact le_trans (Cnt.cnt_filterMin_le _ _ _) (hA w)
  · intro p w hne
    rw [hfb] at hne ⊢
    rw [hfu]
    obtain ⟨heq, hge⟩ := Tbl.look_filterMin_ne_zero _ _ _ _ hne
    have h1 : mc ≤ m.unigrams.cnt p := le_trans hge (hBp p w)
    rw [heq, Cnt.cnt_filterMin_of_le _ _ _ h1]
    refine ⟨hBp p w, ?_⟩
    rw [heq] at hne
    have := hBp p w
    omega
  · rw [hfo]
    intro h3 a b w hne
    have hftr : (filterNgrams m mc).trigrams = m.trigrams.filterMin mc := by
      show (if 3 ≤ m.order then m.trigrams.filterMin mc else m.trigrams) = _
      rw [if_pos h3]
    rw [hftr] at hne ⊢
    rw [hfb]
    obtain ⟨heq, hge⟩ := Tbl.look_filterMin_ne_zero _ _ _ _ hne
    have h1 : mc ≤ m.bigrams.look a b := le_trans hge (hCp h3 a b w)
    rw [heq, Tbl.look_filterMin_of_le _ _ _ _ h1]
    refine ⟨hCp h3 a b w, ?_⟩
    rw [heq] at hne
    have := hCp h3 a b w
    omega
  · rw [hfo]
    intro h4 a b c w hne
    have h3 : 3 ≤ m.order := by omega
    have hff : (filterNgrams m mc).fourgrams = m.fourgrams.filterMin mc := by
      show (if 4 ≤ m.order then m.fourgrams.filterMin mc else m.fourgrams) = _
      rw [if_pos h4]
    have hftr : (filterNgrams m mc).trigrams = m.trigrams.filterMin mc := by
      show (if 3 ≤ m.order then m.trigrams.filterMin mc else m.trigrams) = _
      rw [if_pos h3]
    rw [hff] at hne ⊢
    rw [hftr]
    obtain ⟨heq, hge⟩ := Tbl.look_filterMin_ne_zero _ _ _ _ hne
    have h1 : mc ≤ m.trigrams.look (a, b) c := le_trans hge (hDp h4 a b c w)
    rw [heq, Tbl.look_filterMin_of_le _ _ _ _ h1]
    refine ⟨hDp h4 a b c w, ?_⟩
    rw [heq] at hne
    have := hDp h4 a b c w
    omega
  · intro p hp
    rw [hfu] at hp
    obtain ⟨heq, _⟩ := Cnt.cnt_filterMin_ne_zero _ _ _ hp
    rw [heq] at hp
    exact hE p hp

/-- Any model produced by `train` from a fresh model is sound. -/
lemma sound_train (ord : Nat) (texts : List String) (mc : Nat) :
    Sound (train (NgramModel.init ord) texts mc) :=
  sound_filterNgrams _ mc
    (windowInv_fold texts (NgramModel.init ord)
      ⟨none, none, none, windowInv_init ord⟩)

/-- The `_add_tokens` loop never removes vocabulary entries. -/
lemma vocab_sub_addTokensGo : ∀ (ts : List String) (m : NgramModel)
    (p3 p2 p1 : Option String) (x : String), x ∈ m.vocabulary →
    x ∈ (addTokensGo m p3 p2 p1 ts).vocabulary := by
  intro ts
  induction ts with
  | nil => intro m p3 p2 p1 x h; exact h
  | cons t ts ih =>
      intro m p3 p2 p1 x h
      exact ih _ _ _ _ x (vocabAdd_mono _ _ _ h)

/-- The first processed token lands in the vocabulary. -/
lemma vocab_mem_addTokensGo (ts : List String) (m : NgramModel)
    (p3 p2 p1 : Option String) (t : String) :
    t ∈ (addTokensGo m p3 p2 p1 (t :: ts)).vocabulary :=
  vocab_sub_addTokensGo ts _ _ _ _ t (vocabAdd_self _ _)

/-- The per-text fold never removes vocabulary entries. -/
lemma vocab_sub_fold : ∀ (texts : List String) (m : NgramModel) (x : String),
    x ∈ m.vocabulary →
    x ∈ ((texts.foldl (fun acc tx => addTokens acc (tokenize tx)) m)).vocabulary := by
  intro texts
  induction texts with
  | nil => intro m x h; exact h
  | cons t ts ih =>
      intro m x h
      exact ih _ x (vocab_sub_addTokensGo _ _ _ _ _ x h)

/-- A text with at least one token gives the fold a nonempty
vocabulary. -/
lemma vocab_mem_fold : ∀ (texts : List String) (m : NgramModel),
    (∃ tx ∈ texts, tokenize tx ≠ []) →
    ∃ x, x ∈ ((texts.foldl (fun acc tx => addTokens acc (tokenize tx)) m)).vocabulary := by
  intro texts
  induction texts with
  | nil => intro m h; simp at h
  | cons t ts ih =>
      intro m h
      obtain ⟨tx, htx, hne⟩ := h
      rcases List.mem_cons.mp htx with rfl | hmem
      · rcases hto : tokenize tx with _ | ⟨t0, ts0⟩
        · exact absurd hto hne
        · refine ⟨t0, vocab_sub_fold ts _ t0 ?_⟩
          show t0 ∈ (addTokens m (tokenize tx)).vocabulary
          rw [hto]
          exact vocab_mem_addTokensGo _ _ _ _ _ _
      · exact ih _ ⟨tx, hmem, hne⟩

/-- A trained model built from texts holding at least one token has a
nonempty vocabulary. -/
lemma vocab_ne_nil_train (ord : Nat) (texts : List String) (mc : Nat)
    (htok : ∃ tx ∈ texts, tokenize tx ≠ []) :
    (train (NgramModel.init ord) texts mc).vocabulary ≠ [] := by
  obtain ⟨x, hx⟩ := vocab_mem_fold texts (NgramModel.init ord) htok
  have hx2 : x ∈ (train (NgramModel.init ord) texts mc).vocabulary := hx
  intro hc
  rw [hc] at hx2
  cases hx2

/-- The smoothing ratio lies in `(0, 1]` whenever the target count is at
most the context count and the vocabulary is nonempty. -/
lemma ratio_bound (cn cc V : Nat) (s : ℚ) (hs : 0 < s) (hle : cn ≤ cc)
    (hV : 1 ≤ V) :
    0 < ((cn : ℚ) + s) / ((cc : ℚ) + (V : ℚ) * s) ∧
      ((cn : ℚ) + s) / ((cc : ℚ) + (V : ℚ) * s) ≤ 1 := by
  have hV' : (1 : ℚ) ≤ (V : ℚ) := by exact_mod_cast hV
  have hcc : (0 : ℚ) ≤ (cc : ℚ) := by positivity
  have hcn : (cn : ℚ) ≤ (cc : ℚ) := by exact_mod_cast hle
  have hd : 0 < (cc : ℚ) + (V : ℚ) * s := by nlinarith
  constructor
  · apply div_pos _ hd
    positivity
  · rw [div_le_one hd]
    nlinarith

/-- `_get_unigram_prob` lies in `(0, 1]` on a sound model with nonempty
vocabulary. -/
lemma getUnigramProb_bound (m : NgramModel) (s : ℚ) (w : String)
    (hs : 0 < s) (hA : ∀ x, m.unigrams.cnt x ≤ m.totalWords)
    (hV : m.vocabulary ≠ []) :
    0 < getUnigramProb m w s ∧ getUnigramProb m w s ≤ 1 := by
  have hv1 : 1 ≤ m.vocabulary.length := List.length_pos.mpr hV
  exact ratio_bound _ _ _ s hs (hA w) hv1

/-- `_get_bigram_prob` lies in `(0, 1]` on a sound model with nonempty
vocabulary. -/
lemma getBigramProb_bound (m : NgramModel) (s : ℚ) (w : String)
    (ctx : List String) (hs : 0 < s)
    (hA : ∀ x, m.unigrams.cnt x ≤ m.totalWords)
    (hV : m.vocabulary ≠ [])
    (hB : ∀ p x, m.bigrams.look p x ≠ 0 →
      m.bigrams.look p x ≤ m.unigrams.cnt p ∧ m.unigrams.cnt p ≠ 0) :
    0 < getBigramProb m w ctx s ∧ getBigramProb m w ctx s ≤ 1 := by
  have hv1 : 1 ≤ m.vocabulary.length := List.length_pos.mpr hV
  unfold getBigramProb
  rcases hl : ctx.getLast? with _ | prev
  · exact getUnigramProb_bound m s w hs hA hV
  · dsimp only
    by_cases hz : m.unigrams.cnt prev = 0
    · rw [if_pos hz]
      exact getUnigramProb_bound m s w hs hA hV
    · rw [if_neg hz]
      have hle : m.bigrams.look prev w ≤ m.unigrams.cnt prev := by
        by_cases hbz : m.bigrams.look prev w = 0
        · rw [hbz]; omega
        · exact (hB prev w hbz).1
      exact ratio_bound _ _ _ s hs hle hv1

/-- `_get_trigram_prob` lies in `(0, 1]` on a sound model with nonempty
vocabulary, for orders admitting trigrams. -/
lemma getTrigramProb_bound (m : NgramModel) (s : ℚ) (w : String)
    (ctx : List String) (_h3 : 3 ≤ m.order) (hs : 0 < s)
    (hA : ∀ x, m.unigrams.cnt x ≤ m.totalWords)
    (hV : m.vocabulary ≠ [])
    (hB : ∀ p x, m.bigrams.look p x ≠ 0 →
      m.bigrams.look p x ≤ m.unigrams.cnt p ∧ m.unigrams.cnt p ≠ 0)
    (hC : ∀ a b x, m.trigrams.look (a, b) x ≠ 0 →
      m.trigrams.look (a, b) x ≤ m.bigrams.look a b ∧
        m.bigrams.look a b ≠ 0) :
    0 < getTrigramProb m w ctx s ∧ getTrigramProb m w ctx s ≤ 1 := by
  have hv1 : 1 ≤ m.vocabulary.length := List.length_pos.mpr hV
  unfold getTrigramProb
  by_cases hlen : ctx.length < 2
  · rw [if_pos hlen]
    exact getBigramProb_bound m s w ctx hs hA hV hB
  · rw [if_neg hlen]
    by_cases hz : m.bigrams.look (ctx.getD (ctx.length - 2) "")
        (ctx.getD (ctx.length - 1) "") = 0
    · rw [if_pos hz]
      exact getBigramProb_bound m s w _ hs hA hV hB
    · rw [if_neg hz]
      have hle : m.trigrams.look (ctx.getD (ctx.length - 2) "",
          ctx.getD (ctx.length - 1) "") w ≤
          m.bigrams.look (ctx.getD (ctx.length - 2) "")
            (ctx.getD (ctx.length - 1) "") := by
        by_cases htz : m.trigrams.look (ctx.getD (ctx.length - 2) "",
            ctx.getD (ctx.length - 1) "") w = 0
        · rw [htz]; omega
        · exact (hC _ _ _ htz).1
      exact ratio_bound _ _ _ s hs hle hv1

/-- `_get_fourgram_prob` lies in `(0, 1]` on a sound model with nonempty
vocabulary, for orders admitting fourgrams. -/
lemma getFourgramProb_bound (m : NgramModel) (s : ℚ) (w : String)
    (ctx : List String) (h4 : 4 ≤ m.order) (hs : 0 < s)
    (hA : ∀ x, m.unigrams.cnt x ≤ m.totalWords)
    (hV : m.vocabulary ≠ [])
    (hB : ∀ p x, m.bigrams.look p x ≠ 0 →
      m.bigrams.look p x ≤ m.unigrams.cnt p ∧ m.unigrams.cnt p ≠ 0)
    (hC : ∀ a b x, m.trigrams.look (a, b) x ≠ 0 →
      m.trigrams.look (a, b) x ≤ m.bigrams.look a b ∧
        m.bigrams.look a b ≠ 0)
    (hD : ∀ a b c x, m.fourgrams.look (a, b, c) x ≠ 0 →
      m.fourgrams.look (a, b, c) x ≤ m.trigrams.look (a, b) c ∧
        m.trigrams.look (a, b) c ≠ 0) :
    0 < getFourgramProb m w ctx s ∧ getFourgramProb m w ctx s ≤ 1 := by
  have hv1 : 1 ≤ m.vocabulary.length := List.length_pos.mpr hV
  have h3 : 3 ≤ m.order := by omega
  unfold getFourgramProb
  by_cases hlen : ctx.length < 3
  · rw [if_pos hlen]
    exact getTrigramProb_bound m s w ctx h3 hs hA hV hB hC
  · rw [if_neg hlen]
    by_cases hz : m.trigrams.look (ctx.getD (ctx.length - 3) "",
        ctx.getD (ctx.length - 2) "") (ctx.getD (ctx.length - 1) "") = 0
    · rw [if_pos hz]
      exact getTrigramProb_bound m s w _ h3 hs hA hV hB hC
    · rw [if_neg hz]
      have hle : m.fourgrams.look (ctx.getD (ctx.length - 3) "",
          ctx.getD (ctx.length - 2) "", ctx.getD (ctx.length - 1) "") w ≤
          m.trigrams.look (ctx.getD (ctx.length - 3) "",
            ctx.getD (ctx.length - 2) "") (ctx.getD (ctx.length - 1) "") := by
        by_cases hfz : m.fourgrams.look (ctx.getD (ctx.length - 3) "",
            ctx.getD (ctx.length - 2) "", ctx.getD (ctx.length - 1) "") w = 0
        · rw [hfz]; omega
        · exact (hD _ _ _ _ hfz).1
      exact ratio_bound _ _ _ s hs hle hv1

/-- Claim C4, counterexample to the claim as stated: with the positive
smoothing parameter 2, an untrained model (the fresh `NgramModel`)
returns 2 from `get_probability`, which is not at most 1. -/
theorem c4_smoothing_counterexample :
    getProbability (NgramModel.init 4) "a" [] 2 = 2 ∧
    ¬ getProbability (NgramModel.init 4) "a" [] 2 ≤ 1 := by
  have h : getProbability (NgramModel.init 4) "a" [] 2 = 2 := by
    simp [getProbability, NgramModel.init]
  refine ⟨h, ?_⟩
  rw [h]
  norm_num

/-- Claim C4, amended: for every smoothing `s` with `0 < s ≤ 1`, a model
whose trained flag is false returns exactly `s` (hence a value in
`(0, 1]`), and a model obtained by `train` from a fresh model, on texts
containing at least one token, returns a value in `(0, 1]` for every
word and context, with no division by zero. -/
theorem c4_probability_range (texts : List String) (mc ord : Nat)
    (w : String) (ctx : List String) (s : ℚ) (hs : 0 < s) (hs1 : s ≤ 1)
    (htok : ∃ tx ∈ texts, tokenize tx ≠ []) :
    (∀ m : NgramModel, m.trained = false →
      getProbability m w ctx s = s ∧ 0 < getProbability m w ctx s ∧
        getProbability m w ctx s ≤ 1) ∧
    (0 < getProbability (train (NgramModel.init ord) texts mc) w ctx s ∧
      getProbability (train (NgramModel.init ord) texts mc) w ctx s ≤ 1) := by
  constructor
  · intro m hm
    have he : getProbability m w ctx s = s := by simp [getProbability, hm]
    exact ⟨he, by rw [he]; exact hs, by rw [he]; exact hs1⟩
  · obtain ⟨sA, sB, sC, sD, _⟩ := sound_train ord texts mc
    have hV := vocab_ne_nil_train ord texts mc htok
    have hMt : (train (NgramModel.init ord) texts mc).trained = true := rfl
    rw [getProbability, hMt]
    simp only [Bool.true_eq_false, if_false]
    split_ifs with h1 h2 h3
    · have h3o : 3 ≤ (train (NgramModel.init ord) texts mc).order := by
        have := h1.2
        omega
      exact getFourgramProb_bound _ s _ _ h1.2 hs sA hV sB (sC h3o) (sD h1.2)
    · exact getTrigramProb_bound _ s _ _ h2.2 hs sA hV sB (sC h2.2)
    · exact getBigramProb_bound _ s _ _ hs sA hV sB
    · exact getUnigramProb_bound _ s _ hs sA hV

/-- Witness for the amended C4 at smoothing 1 and the model trained on
`["a a a"]`. -/
theorem c4_probability_range_witness :
    ((0 : ℚ) < 1 ∧ (1 : ℚ) ≤ 1 ∧ (∃ tx ∈ ["a a a"], tokenize tx ≠ [])) ∧
    ((∀ m : NgramModel, m.trained = false →
        getProbability m "b" ["a"] 1 = 1 ∧ 0 < getProbability m "b" ["a"] 1 ∧
          getProbability m "b" ["a"] 1 ≤ 1) ∧
      (0 < getProbability (train (NgramModel.init 4) ["a a a"] 2) "b" ["a"] 1 ∧
        getProbability (train (NgramModel.init 4) ["a a a"] 2) "b" ["a"] 1 ≤ 1)) :=
  ⟨⟨zero_lt_one, le_refl 1, by decide⟩,
   c4_probability_range ["a a a"] 2 4 "b" ["a"] 1 zero_lt_one (le_refl 1)
     (by decide)⟩

/-- The backoff behaviour claimed for `get_probability` on a trained
4-gram model over an already-normalised word and context `[p3, p2, p1]`:
the dispatch picks the order fitting the context length; at each order
the value is `(count(context, word) + s) / (count(context) + V*s)`
whenever the conditioning context's count is nonzero (regardless of the
target n-gram's count), and the model backs off to the next lower order
exactly when that context count is zero. -/
def BackoffSpec (m : NgramModel) (w p3 p2 p1 : String) (s : ℚ) : Prop :=
  (getProbability m w [p3, p2, p1] s = getFourgramProb m w [p3, p2, p1] s) ∧
  (getProbability m w [p2, p1] s = getTrigramProb m w [p2, p1] s) ∧
  (getProbability m w [p1] s = getBigramProb m w [p1] s) ∧
  (getProbability m w [] s = getUnigramProb m w s) ∧
  (m.trigrams.look (p3, p2) p1 ≠ 0 →
    getFourgramProb m w [p3, p2, p1] s =
      ((m.fourgrams.look (p3, p2, p1) w : ℚ) + s) /
        ((m.trigrams.look (p3, p2) p1 : ℚ) + (m.vocabulary.length : ℚ) * s)) ∧
  (m.trigrams.look (p3, p2) p1 = 0 →
    getFourgramProb m w [p3, p2, p1] s = getTrigramProb m w [p2, p1] s) ∧
  (m.bigrams.look p2 p1 ≠ 0 →
    getTrigramProb m w [p2, p1] s =
      ((m.trigrams.look (p2, p1) w : ℚ) + s) /
        ((m.bigrams.look p2 p1 : ℚ) + (m.vocabulary.length : ℚ) * s)) ∧
  (m.bigrams.look p2 p1 = 0 →
    getTrigramProb m w [p2, p1] s = getBigramProb m w [p1] s) ∧
  (m.unigrams.cnt p1 ≠ 0 →
    getBigramProb m w [p1] s =
      ((m.bigrams.look p1 w : ℚ) + s) /
        ((m.unigrams.cnt p1 : ℚ) + (m.vocabulary.length : ℚ) * s)) ∧
  (m.unigrams.cnt p1 = 0 →
    getBigramProb m w [p1] s = getUnigramProb m w s) ∧
  (getUnigramProb m w s =
    ((m.unigrams.cnt w : ℚ) + s) /
      ((m.totalWords : ℚ) + (m.vocabulary.length : ℚ) * s))

/-- Claim C3: on a trained 4-gram model, `get_probability` backs off to
the next lower order exactly when the conditioning context's total count
is zero (never merely because the target n-gram's count is zero), and at
every order the returned value is
`(count(context, word) + s) / (count(context) + V * s)`. -/
theorem c3_backoff (m : NgramModel) (w p3 p2 p1 : String) (s : ℚ)
    (h : m.trained = true) (horder : m.order = 4)
    (hw : lowStr w = w)
    (hp3 : lowStr p3 = p3) (hp3ne : p3 ≠ "")
    (hp2 : lowStr p2 = p2) (hp2ne : p2 ≠ "")
    (hp1 : lowStr p1 = p1) (hp1ne : p1 ≠ "") :
    BackoffSpec m w p3 p2 p1 s := by
  refine ⟨?_, ?_, ?_, ?_, ?_, ?_, ?_, ?_, ?_, ?_, ?_⟩
  · simp [getProbability, h, horder, hw, hp3, hp2, hp1, hp3ne, hp2ne, hp1ne]
  · simp [getProbability, h, horder, hw, hp2, hp1, hp2ne, hp1ne]
  · simp [getProbability, h, horder, hw, hp1, hp1ne]
  · simp [getProbability, h, horder, hw]
  · intro hcc
    simp [getFourgramProb, hcc]
  · intro hcc
    simp [getFourgramProb, hcc]
  · intro hcc
    simp [getTrigramProb, hcc]
  · intro hcc
    simp [getTrigramProb, hcc]
  · intro hcc
    simp [getBigramProb, hcc]
  · intro hcc
    simp [getBigramProb, hcc]
  · rfl

/-- A small trained 4-gram model for the C3 witness. -/
def mC3 : NgramModel := train (NgramModel.init 4) ["a b c d a b c d"] 1

/-- Witness for C3 on `mC3` at the lowercase nonempty words
`"a" "b" "c" "d"` and smoothing 1/100. -/
theorem c3_backoff_witness :
    (mC3.trained = true ∧ mC3.order = 4 ∧ lowStr "a" = "a" ∧
      lowStr "b" = "b" ∧ lowStr "c" = "c" ∧ lowStr "d" = "d") ∧
    BackoffSpec mC3 "a" "b" "c" "d" (1 / 100) :=
  ⟨⟨by decide, by decide, by decide, by decide, by decide, by decide⟩,
   c3_backoff mC3 "a" "b" "c" "d" (1 / 100) (by decide) (by decide)
     (by decide) (by decide) (by decide) (by decide) (by decide)
     (by decide) (by decide)⟩

/-- `Char.isLower` as a code-point range. -/
lemma isLower_iff (c : Char) :
    c.isLower = true ↔ 97 ≤ c.toNat ∧ c.toNat ≤ 122 := by
  simp only [Char.isLower, Bool.and_eq_true, decide_eq_true_eq]
  show 97 ≤ c.val ∧ c.val ≤ 122 ↔ _
  constructor
  · rintro ⟨h1, h2⟩
    exact ⟨h1, h2⟩
  · rintro ⟨h1, h2⟩
    exact ⟨h1, h2⟩

/-- `Char.isUpper` as a code-point range. -/
lemma isUpper_iff (c : Char) :
    c.isUpper = true ↔ 65 ≤ c.toNat ∧ c.toNat ≤ 90 := by
  simp only [Char.isUpper, Bool.and_eq_true, decide_eq_true_eq]
  show 65 ≤ c.val ∧ c.val ≤ 90 ↔ _
  constructor
  · rintro ⟨h1, h2⟩
    exact ⟨h1, h2⟩
  · rintro ⟨h1, h2⟩
    exact ⟨h1, h2⟩

/-- `Char.isDigit` as a code-point range. -/
lemma isDigit_iff (c : Char) :
    c.isDigit = true ↔ 48 ≤ c.toNat ∧ c.toNat ≤ 57 := by
  simp only [Char.isDigit, Bool.and_eq_true, decide_eq_true_eq]
  show 48 ≤ c.val ∧ c.val ≤ 57 ↔ _
  constructor
  · rintro ⟨h1, h2⟩
    exact ⟨h1, h2⟩
  · rintro ⟨h1, h2⟩
    exact ⟨h1, h2⟩

/-- `Char.ofNat` at a valid code point. -/
lemma char_toNat_ofNat (k : Nat) (h : k < 55296) : (Char.ofNat k).toNat = k := by
  have hv : k.isValidChar := Or.inl h
  rw [Char.ofNat, dif_pos hv]
  show (UInt32.ofNat' k _).toNat = k
  simp [UInt32.ofNat', UInt32.toNat]

/-- The code point of `lowChar`. -/
lemma lowChar_toNat (c : Char) :
    (lowChar c).toNat =
      if 65 ≤ c.toNat ∧ c.toNat ≤ 90 then c.toNat + 32 else c.toNat := by
  unfold lowChar
  split_ifs with h
  · exact char_toNat_ofNat _ (by omega)
  · rfl

/-- Equality with underscore as a code point. -/
lemma eq_underscore_iff (c : Char) : c = '_' ↔ c.toNat = 95 := by
  constructor
  · rintro rfl
    rfl
  · intro h
    apply Char.eq_of_val_eq
    apply UInt32.eq_of_toBitVec_eq
    apply BitVec.eq_of_toNat_eq
    exact h

/-- On non-digit, non-underscore characters, the regex word class agrees
with the letter class. -/
lemma wordChar_eq_isAlpha (c : Char) (hd : c.isDigit = false)
    (hu : c ≠ '_') : wordChar c = c.isAlpha := by
  simp [wordChar, Char.isAlphanum, hd, hu]

/-- Lowercasing cannot create a digit. -/
lemma lowChar_isDigit (c : Char) (hd : c.isDigit = false) :
    (lowChar c).isDigit = false := by
  rw [Bool.eq_false_iff]
  intro hcon
  rw [isDigit_iff, lowChar_toNat] at hcon
  rw [Bool.eq_false_iff] at hd
  have hd2 : ¬(48 ≤ c.toNat ∧ c.toNat ≤ 57) := fun hh => hd ((isDigit_iff c).mpr hh)
  split_ifs at hcon <;> omega

/-- Lowercasing cannot create an underscore. -/
lemma lowChar_ne_underscore (c : Char) (hu : c ≠ '_') : lowChar c ≠ '_' := by
  intro hcon
  rw [eq_underscore_iff, lowChar_toNat] at hcon
  have hu2 : c.toNat ≠ 95 := fun hh => hu ((eq_underscore_iff c).mpr hh)
  split_ifs at hcon <;> omega

/-- A letter produced by `lowChar` is a lowercase letter. -/
lemma lowChar_isAlpha_isLower (c : Char)
    (h : (lowChar c).isAlpha = true) : (lowChar c).isLower = true := by
  rcases Bool.or_eq_true .. |>.mp (by simpa [Char.isAlpha] using h) with hu | hl
  · rw [isUpper_iff, lowChar_toNat] at hu
    rw [isLower_iff, lowChar_toNat]
    split_ifs at hu ⊢ <;> omega
  · exact hl

/-- `groupRuns` only inspects the predicate on list members. -/
lemma groupRuns_congr (p q : Char → Bool) : ∀ l : List Char,
    (∀ c ∈ l, p c = q c) → groupRuns p l = groupRuns q l := by
  intro l
  induction l with
  | nil => intro _; rfl
  | cons c rest ih =>
      intro h
      have hr : groupRuns p rest = groupRuns q rest :=
        ih (fun x hx => h x (List.mem_cons_of_mem _ hx))
      have hc : p c = q c := h c (List.mem_cons_self _ _)
      simp only [groupRuns, hr, hc]

/-- Every member of a run produced by `groupRuns` is a member of the
input with predicate value equal to the run's tag. -/
lemma groupRuns_sound (p : Char → Bool) : ∀ (l : List Char)
    (br : Bool × List Char), br ∈ groupRuns p l → ∀ c ∈ br.2,
    c ∈ l ∧ p c = br.1 := by
  intro l
  induction l with
  | nil => intro br h; simp [groupRuns] at h
  | cons a rest ih =>
      intro br hbr c hc
      rcases hgr : groupRuns p rest with _ | ⟨⟨b, run⟩, t⟩
      · simp only [groupRuns, hgr] at hbr
        simp at hbr
        subst hbr
        simp at hc
        subst hc
        exact ⟨List.mem_cons_self _ _, rfl⟩
      · simp only [groupRuns, hgr] at hbr
        by_cases hpa : p a = b
        · rw [if_pos hpa] at hbr
          rcases List.mem_cons.mp hbr with rfl | hbr2
          · rcases List.mem_cons.mp hc with rfl | hc2
            · exact ⟨List.mem_cons_self _ _, rfl⟩
            · have := ih (b, run) (by rw [hgr]; exact List.mem_cons_self _ _) c hc2
              exact ⟨List.mem_cons_of_mem _ this.1, by rw [this.2, hpa]⟩
          · have := ih br (by rw [hgr]; exact List.mem_cons_of_mem _ hbr2) c hc
            exact ⟨List.mem_cons_of_mem _ this.1, this.2⟩
        · rw [if_neg hpa] at hbr
          rcases List.mem_cons.mp hbr with rfl | hbr2
          · rcases List.mem_cons.mp hc with rfl | hc2
            · exact ⟨List.mem_cons_self _ _, rfl⟩
            · simp at hc2
          · have := ih br (by rw [hgr]; exact hbr2) c hc
            exact ⟨List.mem_cons_of_mem _ this.1, this.2⟩

/-- Modelled from the spec's words for C7: "lowercases the text and
treats every non-letter character as a token separator, so the resulting
tokens are exactly the maximal runs of letters in the text in order". -/
def specTokenize (text : String) : List String :=
  ((groupRuns Char.isAlpha (lowStr text).data).filter (·.1)).map
    (fun r => String.mk r.2)

/-- Claim C7, counterexample to the claim as stated: digits do not act
as separators.  On `"abc123"` the maximal letter run is `"abc"`, but the
tokeniser returns no token at all, because the letter run has no word
boundary against the adjacent digits. -/
theorem c7_tokenize_counterexample :
    tokenize "abc123" = [] ∧ specTokenize "abc123" = ["abc"] ∧
    tokenize "abc123" ≠ specTokenize "abc123" := by
  refine ⟨by decide, by decide, by decide⟩

/-- Claim C7, amended: the tokeniser lowercases the text and returns the
maximal runs of word characters (letters, digits, underscore) that
consist entirely of letters; a letter run adjacent to a digit or an
underscore is dropped whole rather than split.  In particular, on texts
containing no digit and no underscore, the tokens are exactly the
maximal runs of letters of the lowercased text, in order. -/
theorem c7_tokenize_amended (text : String)
    (hnd : ∀ c ∈ text.data, c.isDigit = false ∧ c ≠ '_') :
    tokenize text = specTokenize text := by
  unfold tokenize specTokenize
  have hld : ∀ c ∈ (lowStr text).data, c.isDigit = false ∧ c ≠ '_' := by
    intro c hc
    rw [show (lowStr text).data = text.data.map lowChar from rfl] at hc
    obtain ⟨c0, hc0, rfl⟩ := List.mem_map.mp hc
    obtain ⟨h1, h2⟩ := hnd c0 hc0
    exact ⟨lowChar_isDigit c0 h1, lowChar_ne_underscore c0 h2⟩
  have hcongr : groupRuns wordChar (lowStr text).data =
      groupRuns Char.isAlpha (lowStr text).data :=
    groupRuns_congr _ _ _
      (fun c hc => wordChar_eq_isAlpha c (hld c hc).1 (hld c hc).2)
  rw [hcongr]
  have hall : ∀ br ∈ groupRuns Char.isAlpha (lowStr text).data,
      br.1 = true → br.2.all Char.isLower = true := by
    intro br hbr hb
    rw [List.all_eq_true]
    intro c hc
    obtain ⟨hmem, hp⟩ := groupRuns_sound _ _ br hbr c hc
    rw [show (lowStr text).data = text.data.map lowChar from rfl] at hmem
    obtain ⟨c0, _, rfl⟩ := List.mem_map.mp hmem
    exact lowChar_isAlpha_isLower c0 (by rw [hp, hb])
  have key : ∀ (runs : List (Bool × List Char)),
      (∀ br ∈ runs, br.1 = true → br.2.all Char.isLower = true) →
      runs.filterMap (fun r =>
        if r.1 && r.2.all Char.isLower then some (String.mk r.2) else none) =
      (runs.filter (·.1)).map (fun r => String.mk r.2) := by
    intro runs
    induction runs with
    | nil => intro _; rfl
    | cons r rest ih =>
        intro h
        have hrest := ih (fun br hbr => h br (List.mem_cons_of_mem _ hbr))
        rcases r with ⟨b, run⟩
        cases b with
        | false =>
            rw [List.filterMap_cons, List.filter_cons]
            simp only [Bool.false_and, Bool.false_eq_true, if_false]
            rw [hrest]
        | true =>
            have hallr : run.all Char.isLower = true :=
              h ⟨true, run⟩ (List.mem_cons_self _ _) rfl
            rw [List.filterMap_cons, List.filter_cons]
            simp only [Bool.true_and, hallr, if_true]
            rw [hrest, List.map_cons]
  exact key _ hall

/-- Witness for the amended C7 on a text with uppercase letters, spaces
and punctuation but no digits or underscores. -/
theorem c7_tokenize_amended_witness :
    (∀ c ∈ ("Hello, World!" : String).data, c.isDigit = false ∧ c ≠ '_') ∧
    tokenize "Hello, World!" = specTokenize "Hello, World!" :=
  ⟨by decide, c7_tokenize_amended "Hello, World!" (by decide)⟩

deriving instance DecidableEq for Except

/-- Claim C6: evaluation of the failing input.  On the model trained on
`["a a a"]` with `min_count = 2`, the context `["b"]` has no observed
continuation at any order, so the fallback
`candidates = set(self.unigrams.most_common(100))` runs with a nonempty
unigram table and `rank_candidates` raises `AttributeError` instead of
returning the ranked unigram fallback. -/
theorem c6_fallback_crash :
    getNextWordPredictions (train (NgramModel.init 4) ["a a a"] 2) ["b"] 10 =
      Except.error "AttributeError: 'tuple' object has no attribute 'lower'" := by
  decide

/-! ### Correction orchestrator

`CorrectionService` (correction_endpoint.py).  The neural corrector is an
external collaborator: it is modelled by a flag saying whether it loaded
and an oracle `String → Option (String × ℚ)` whose `none` stands for the
call raising (the code catches any exception).  `processing_time_ms` is
wall-clock time and is not modelled; `cached` is always false on these
paths (the cache wrapper sits in `correct_text`, outside the three mode
handlers). -/

/-- `settings.MIN_CONFIDENCE_THRESHOLD` (config.py line 92). -/
def MIN_CONFIDENCE_THRESHOLD : ℚ := 19 / 20

/-- The `Suggestion` response model (correction_endpoint.py lines 30-34). -/
structure Suggestion where
  text : String
  confidence : ℚ
  source : String
deriving DecidableEq

/-- The `CorrectionResponse` model (lines 37-45), without the wall-clock
`processing_time_ms` field. -/
structure CorrectionResponse where
  original : String
  corrected : String
  suggestions : List Suggestion
  confidence : ℚ
  cached : Bool
  changes_made : Bool
deriving DecidableEq

/-- Python `" ".join(words)`. -/
def joinSpace (ws : List String) : String :=
  String.mk (((ws.map String.data).intersperse [' ']).flatten)

/-- One iteration of the `_auto_correct` word loop (lines 198-225):
returns the words appended to `corrected_words` and whether a correction
was made. -/
def autoWordStep (sc : SpellChecker) (ctx : List String) (word : String) :
    List String × Bool :=
  if word = "" ∨ word.length < 2 ∨ hasAlpha word = false then ([word], false)
  else if pyIsUpper word = true ∧ 1 < word.length then ([word], false)
  else
    match getCorrections sc word ctx 1 with
    | [] => ([word], false)
    | (s0, _) :: _ =>
        if s0 ≠ lowStr word then
          let cw :=
            if (word.data.headD ' ').isUpper = true ∧ ¬ ' ' ∈ s0.data then
              pyCapitalize s0
            else s0
          (if ' ' ∈ cw.data then splitWS cw else [cw], true)
        else ([word], false)

/-- The whole first pass of `_auto_correct`: the corrected word list and
the `any_corrections` flag. -/
def autoSpellPass (sc : SpellChecker) (ctx : List String)
    (words : List String) : List String × Bool :=
  words.foldl (fun acc w =>
    ((acc.1 ++ (autoWordStep sc ctx w).1), (acc.2 || (autoWordStep sc ctx w).2)))
    ([], false)

/-- `_auto_correct` before the confidence gate (lines 193-261): the
final text, final confidence and suggestion list.  On the neural path
the neural result supersedes the spell result; on a neural exception the
spell result stands with confidence 0.8/1.0; with neural disabled,
unloaded, or a single-word input it stands with confidence 0.9/1.0. -/
def autoCorrectCore (sc : SpellChecker) (useNeural neuralLoaded : Bool)
    (neural : String → Option (String × ℚ)) (text : String)
    (ctx : List String) : String × ℚ × List Suggestion :=
  let words := splitWS text
  let pass := autoSpellPass sc ctx words
  let spellText := joinSpace pass.1
  if useNeural = true ∧ neuralLoaded = true ∧ words.length ≠ 1 then
    match neural spellText with
    | some (gt, conf) => (gt, conf, [⟨gt, conf, "neural"⟩])
    | none =>
        ((spellText, if pass.2 then 4 / 5 else 1,
          [⟨spellText, if pass.2 then 4 / 5 else 1, "spell"⟩]))
  else
    ((spellText, if pass.2 then 9 / 10 else 1,
      [⟨spellText, if pass.2 then 9 / 10 else 1, "spell"⟩]))

/-- `_auto_correct` (lines 169-278): the blank-input early return, the
core pass, and the confidence gate of lines 263-268. -/
def autoCorrect (sc : SpellChecker) (threshold : ℚ)
    (useNeural neuralLoaded : Bool) (neural : String → Option (String × ℚ))
    (text : String) (ctx : List String) : CorrectionResponse :=
  if text = "" ∨ isBlank text = true then
    ⟨text, text, [⟨text, 1, "original"⟩], 1, false, false⟩
  else
    if (autoCorrectCore sc useNeural neuralLoaded neural text ctx).2.1 <
          threshold ∧
        text ≠ (autoCorrectCore sc useNeural neuralLoaded neural text ctx).1
    then ⟨text, text, [⟨text, 1, "original"⟩], 1, false, false⟩
    else
      ⟨text, (autoCorrectCore sc useNeural neuralLoaded neural text ctx).1,
        (autoCorrectCore sc useNeural neuralLoaded neural text ctx).2.2,
        (autoCorrectCore sc useNeural neuralLoaded neural text ctx).2.1,
        false,
        decide (text ≠ (autoCorrectCore sc useNeural neuralLoaded neural text ctx).1)⟩

/-- `_correct_grammar` (lines 280-336): no confidence gate at all. -/
def correctGrammarMode (neuralLoaded : Bool)
    (neural : String → Option (String × ℚ)) (text : String) :
    CorrectionResponse :=
  if neuralLoaded = false then
    ⟨text, text, [⟨text, 0, "none"⟩], 0, false, false⟩
  else
    match neural text with
    | some (ct, conf) =>
        ⟨text, ct, [⟨ct, conf, "neural"⟩], conf, false, decide (text ≠ ct)⟩
    | none => ⟨text, text, [⟨text, 0, "error"⟩], 0, false, false⟩

/-- The in-place blend of lines 393-399: update the first suggestion
whose text matches, multiplying confidences `0.7 / 0.3` and appending
`"+ngram"` to its source. -/
def updateFirst (l : List Suggestion) (t : String) (p : ℚ) :
    List Suggestion :=
  match l with
  | [] => []
  | s :: rest =>
      if s.text = t then
        ⟨s.text, s.confidence * (7 / 10) + p * (3 / 10),
          s.source ++ "+ngram"⟩ :: rest
      else s :: updateFirst rest t p

/-- The neural-alternatives loop of lines 376-383, with its
deduplication by exact text against the growing list. -/
def dedupAppend (acc : List Suggestion) (alts : List (String × ℚ)) :
    List Suggestion :=
  alts.foldl (fun acc2 pr =>
    if acc2.any (fun s => s.text = pr.1) then acc2
    else acc2 ++ [⟨pr.1, pr.2, "neural"⟩]) acc

/-- `_generate_suggestions` (lines 338-429).  The ranking loop
`for i, (text, ngram_prob) in enumerate(ranked)` rebinds the Python
variable `text`: after a nonempty `ranked` list the name `text` refers
to the last ranked candidate's text, and the response's `original` and
`changes_made` fields are computed from that shadowed value (`textV`
below), not from the submitted input. -/
def generateSuggestions (sc : SpellChecker) (m : NgramModel)
    (neuralAlts : Option (List (String × ℚ))) (text : String)
    (ctx : List String) (maxSug : Nat) : CorrectionResponse :=
  let spellPart : List Suggestion :=
    if (splitWS text).length = 1 then
      (getCorrections sc text ctx maxSug).map (fun pr => ⟨pr.1, pr.2, "spell"⟩)
    else []
  let allSugg :=
    match neuralAlts with
    | some alts => dedupAppend spellPart alts
    | none => spellPart
  let ranked :=
    if m.trained = true ∧ ctx ≠ [] then
      rankCandidates m (allSugg.map (·.text)) ctx maxSug
    else []
  let updated := ranked.foldl (fun acc pr => updateFirst acc pr.1 pr.2) allSugg
  let textV :=
    match ranked.getLast? with
    | some pr => pr.1
    | none => text
  let top := (sortStable (fun a b => decide (b.confidence ≤ a.confidence))
    updated).take maxSug
  match top with
  | [] => ⟨textV, textV, [⟨textV, 1, "original"⟩], 1, false, false⟩
  | t0 :: _ =>
      ⟨textV, t0.text, top, t0.confidence, false, decide (textV ≠ t0.text)⟩

/-- Claim C1, counterexample to the claim as stated: grammar mode applies
no confidence gate.  With the neural corrector returning `("ab", 0.5)`
on the input `"a"` and the configured threshold 0.95, the grammar-mode
response keeps the changed text at confidence 0.5 instead of reverting
to the original with confidence 1.0. -/
theorem c1_gating_counterexample :
    (correctGrammarMode true (fun _ => some ("ab", 1 / 2)) "a").confidence =
      1 / 2 ∧
    (correctGrammarMode true (fun _ => some ("ab", 1 / 2)) "a").corrected =
      "ab" ∧
    (correctGrammarMode true (fun _ => some ("ab", 1 / 2)) "a").original =
      "a" ∧
    (1 : ℚ) / 2 < MIN_CONFIDENCE_THRESHOLD ∧
    (correctGrammarMode true (fun _ => some ("ab", 1 / 2)) "a").corrected ≠
      (correctGrammarMode true (fun _ => some ("ab", 1 / 2)) "a").original ∧
    (correctGrammarMode true (fun _ => some ("ab", 1 / 2)) "a").confidence ≠
      1 := by
  refine ⟨rfl, rfl, rfl, by norm_num [MIN_CONFIDENCE_THRESHOLD], by decide, ?_⟩
  show (1 : ℚ) / 2 ≠ 1
  norm_num

/-- Claim C1, amended: only auto mode gates.  Whenever the pre-gate
result of `_auto_correct` has confidence below the threshold and a final
text differing from the input, the response reverts to the original text
with confidence 1.0 and the single suggestion tagged `"original"`. -/
theorem c1_auto_gating (sc : SpellChecker) (th : ℚ)
    (useNeural neuralLoaded : Bool) (neural : String → Option (String × ℚ))
    (text : String) (ctx : List String)
    (hconf : (autoCorrectCore sc useNeural neuralLoaded neural text ctx).2.1 < th)
    (hdiff : text ≠ (autoCorrectCore sc useNeural neuralLoaded neural text ctx).1) :
    autoCorrect sc th useNeural neuralLoaded neural text ctx =
      ⟨text, text, [⟨text, 1, "original"⟩], 1, false, false⟩ := by
  unfold autoCorrect
  split_ifs with hblank hgate
  · rfl
  · rfl
  · exact absurd ⟨hconf, hdiff⟩ hgate

/-- Witness for the amended C1: auto mode on `"NASA OK"` (both words
skipped by the acronym heuristic) with a neural result of confidence
0.5; the gate reverts it against the default threshold 0.95. -/
theorem c1_auto_gating_witness :
    ((autoCorrectCore fallbackSpellChecker true true
        (fun _ => some ("xy", 1 / 2)) "NASA OK" []).2.1 <
      MIN_CONFIDENCE_THRESHOLD ∧
     "NASA OK" ≠ (autoCorrectCore fallbackSpellChecker true true
        (fun _ => some ("xy", 1 / 2)) "NASA OK" []).1) ∧
    autoCorrect fallbackSpellChecker MIN_CONFIDENCE_THRESHOLD true true
        (fun _ => some ("xy", 1 / 2)) "NASA OK" [] =
      ⟨"NASA OK", "NASA OK", [⟨"NASA OK", 1, "original"⟩], 1, false, false⟩ :=
  ⟨⟨by with_unfolding_all decide, by decide⟩,
   c1_auto_gating fallbackSpellChecker MIN_CONFIDENCE_THRESHOLD true true
     (fun _ => some ("xy", 1 / 2)) "NASA OK" []
     (by with_unfolding_all decide) (by decide)⟩

/-- Claim C2, counterexample to the claim as stated: in auto mode with
neural disabled and the default configuration, `"I recieve the package"`
comes back unchanged — the spell correction is computed but then
reverted by the confidence gate (0.9 < 0.95). -/
theorem c2_auto_counterexample :
    (autoCorrect fallbackSpellChecker MIN_CONFIDENCE_THRESHOLD false false
        (fun _ => none) "I recieve the package" []).corrected =
      "I recieve the package" ∧
    ("I recieve the package" : String) ≠ "I receive the package" := by
  refine ⟨by with_unfolding_all decide, by decide⟩

/-- Claim C2, amended: the spell pass computes
`"I receive the package"` (only the misspelled token changes) with
confidence 0.9, but 0.9 is below the default threshold 0.95, so the
returned response reverts to the original text with confidence 1.0 and a
single `"original"` suggestion. -/
theorem c2_auto_amended :
    (autoCorrectCore fallbackSpellChecker false false (fun _ => none)
        "I recieve the package" []).1 = "I receive the package" ∧
    (autoCorrectCore fallbackSpellChecker false false (fun _ => none)
        "I recieve the package" []).2.1 = 9 / 10 ∧
    autoCorrect fallbackSpellChecker MIN_CONFIDENCE_THRESHOLD false false
        (fun _ => none) "I recieve the package" [] =
      ⟨"I recieve the package", "I recieve the package",
        [⟨"I recieve the package", 1, "original"⟩], 1, false, false⟩ := by
  refine ⟨by decide, by with_unfolding_all decide, by with_unfolding_all decide⟩

/-- Claim C10: evaluation at the failing input.  In suggestions mode on
the single word `"teh"` with a trained n-gram model and the nonempty
context `["b"]`, the ranking loop rebinds `text`, so the response's
`original` field is the last ranked candidate `"the"` rather than the
submitted `"teh"`, and `changes_made` compares `"the"` against the top
suggestion `"the"`, yielding `false` although the text changed. -/
theorem c10_shadowed_original :
    (generateSuggestions fallbackSpellChecker
        (train (NgramModel.init 4) ["a a a"] 2) none "teh" ["b"] 3).original =
      "the" ∧
    (generateSuggestions fallbackSpellChecker
        (train (NgramModel.init 4) ["a a a"] 2) none "teh" ["b"] 3).original ≠
      "teh" ∧
    (generateSuggestions fallbackSpellChecker
        (train (NgramModel.init 4) ["a a a"] 2) none "teh" ["b"] 3).corrected =
      "the" ∧
    (generateSuggestions fallbackSpellChecker
        (train (NgramModel.init 4) ["a a a"] 2) none "teh" ["b"]
        3).changes_made = false := by
  refine ⟨by with_unfolding_all decide, by with_unfolding_all decide,
    by with_unfolding_all decide, by with_unfolding_all decide⟩
